import Mathlib

/-!
# Verification of the `anatome` representation-similarity library

This development gives a shallow embedding, in Lean 4, of the core numeric
routines of `anatome` (`src/anatome/similarity.py` and `src/anatome/fourier.py`)
and proves or refutes the behavioural claims made about them.

Conventions used throughout:

* Real-valued tensors are modelled over `ℚ` where the computation is exact
  rational arithmetic, and over `ℝ` where square roots / nuclear norms occur.
* The linear-algebra substrate (`torch.svd`, `torch.linalg.norm(ord='nuc')`,
  FFT) is external to the repository; where a routine of the repository calls
  it, the embedding either takes the decomposition data as an explicit
  argument constrained by the decomposition's defining contract
  (`x = U·diag(s)·Vᵀ`, orthonormal columns, non-negative spectrum), or uses a
  mathematical definition of the quantity it returns (sum of singular values
  for the nuclear norm).
* Python code that raises is modelled with `Except`; a function that can fall
  off the end of its body (returning `None`) is modelled with `Option`.
-/

namespace Anatome

/-! ## Untyped matrices (runtime-checked shapes)

`cca` (similarity.py lines 90–128) checks shape agreement at runtime, so for
it we use a matrix representation whose dimensions are data, not types. -/

/-- A matrix whose shape is runtime data: `rows × cols` entries in `ℚ`,
mirroring a 2-D `torch.Tensor`. -/
structure Mat where
  rows : ℕ
  cols : ℕ
  entry : ℕ → ℕ → ℚ

/-- `_zero_mean(input, dim=0)` (similarity.py lines 19–22): subtract from every
entry the mean of its column, taken over the data-point axis 0. -/
def Mat.zero_mean (x : Mat) : Mat :=
  ⟨x.rows, x.cols, fun i j => x.entry i j - (∑ k ∈ Finset.range x.rows, x.entry k j) / x.rows⟩

/-- The result triple of `cca_by_svd` / `cca_by_qr`: x-side coefficients,
y-side coefficients, diagonal of canonical correlations. -/
structure CcaTriple where
  a : Mat
  b : Mat
  diag : List ℚ

/-- The errors `cca` can raise before reaching any decomposition:
the `assert` on the row counts (similarity.py lines 104–105) and the
backend-string check (lines 121–122). -/
inductive CcaError where
  | shapeMismatch
  | invalidBackend
  deriving DecidableEq, Repr

/-- `cca(x, y, backend)` (similarity.py lines 90–128).  The decomposition
backends `cca_by_svd` / `cca_by_qr` call the external SVD/QR substrate, so they
are taken as function arguments.  Control flow follows the source: first the
`assert x.size(0) == y.size(0)` (an exception when rows differ), then the
backend-string check, then unconditional column-centering of both inputs, then
dispatch to the selected backend. -/
def cca (cca_by_svd cca_by_qr : Mat → Mat → CcaTriple) (x y : Mat) (backend : String) :
    Except CcaError CcaTriple :=
  if x.rows ≠ y.rows then .error .shapeMismatch
  else if backend ≠ "svd" ∧ backend ≠ "qr" then .error .invalidBackend
  else if backend = "svd" then .ok (cca_by_svd x.zero_mean y.zero_mean)
  else .ok (cca_by_qr x.zero_mean y.zero_mean)

/-! ## `_svd_reduction` (similarity.py lines 131–153)

The SVD itself is substrate; what the repository contributes is the rule
selecting how many right-singular directions to keep, computed from the
singular-value vector `diag`, and the projection `input @ right[:, :num]`. -/

/-- Cumulative sums of a list, `torch.cumsum`: element `k` (0-based) is the sum
of the first `k+1` elements. -/
def cumsum (l : List ℚ) : List ℚ :=
  (List.range l.length).map (fun k => ((l.take (k + 1)).sum))

/-- The number of retained directions in `_svd_reduction`: with
`full = diag.abs().sum()` and `ratio = diag.abs().cumsum(0) / full`, the code
computes `torch.where(ratio < accept_rate, 1, 0).sum()`, i.e. the count of
positions whose cumulative normalized singular-value mass is strictly below
`accept_rate`. -/
def svd_reduction_keep (diag : List ℚ) (accept_rate : ℚ) : ℕ :=
  ((cumsum (diag.map (fun a => |a|))).map
      (fun c => c / (diag.map (fun a => |a|)).sum)).countP
    (fun c => decide (c < accept_rate))

/-- `right[:, :num]`: keep the first `num` columns of a matrix. -/
def Mat.takeCols (m : Mat) (k : ℕ) : Mat :=
  ⟨m.rows, min k m.cols, m.entry⟩

/-- Matrix product on runtime-shaped matrices. -/
def Mat.mul (a b : Mat) : Mat :=
  ⟨a.rows, b.cols, fun i j => ∑ k ∈ Finset.range a.cols, a.entry i k * b.entry k j⟩

/-- `_svd_reduction(input, accept_rate)` given the SVD data of `input`
(`right` = the right-singular-vector matrix, `diag` = the singular values):
project `input` onto the first `svd_reduction_keep diag accept_rate`
right-singular directions, `input @ right[:, :num]`. -/
def svd_reduction (input right : Mat) (diag : List ℚ) (accept_rate : ℚ) : Mat :=
  input.mul (right.takeCols (svd_reduction_keep diag accept_rate))

/-- The cumulative normalized singular-value mass of the first `k` directions:
`(|s₁| + ⋯ + |sₖ|) / (|s₁| + ⋯ + |s_D|)`. -/
def prefixMassFrac (diag : List ℚ) (k : ℕ) : ℚ :=
  ((diag.map (fun a => |a|)).take k).sum / (diag.map (fun a => |a|)).sum

/-! ### Auxiliary facts about prefix sums and downward-closed counting -/

lemma take_sum_nonneg (l : List ℚ) (hl : ∀ a ∈ l, 0 ≤ a) (k : ℕ) :
    0 ≤ (l.take k).sum :=
  List.sum_nonneg (fun a ha => hl a (List.mem_of_mem_take ha))

lemma take_sum_le_sum (l : List ℚ) (hl : ∀ a ∈ l, 0 ≤ a) (k : ℕ) :
    (l.take k).sum ≤ l.sum := by
  conv_rhs => rw [← List.take_append_drop k l]
  rw [List.sum_append]
  have : 0 ≤ (l.drop k).sum :=
    List.sum_nonneg (fun a ha => hl a (List.mem_of_mem_drop ha))
  linarith

lemma take_sum_mono (l : List ℚ) (hl : ∀ a ∈ l, 0 ≤ a) {j k : ℕ} (hjk : j ≤ k) :
    (l.take j).sum ≤ (l.take k).sum := by
  have h1 : (l.take k).take j = l.take j := by
    rw [List.take_take, min_eq_left hjk]
  calc (l.take j).sum = ((l.take k).take j).sum := by rw [h1]
    _ ≤ (l.take k).sum :=
      take_sum_le_sum _ (fun a ha => hl a (List.mem_of_mem_take ha)) j

lemma prefixMassFrac_mono (diag : List ℚ) {j k : ℕ} (hjk : j ≤ k) :
    prefixMassFrac diag j ≤ prefixMassFrac diag k := by
  unfold prefixMassFrac
  set l := diag.map (fun a => |a|) with hldef
  have hl : ∀ a ∈ l, 0 ≤ a := by
    intro a ha
    obtain ⟨b, _, rfl⟩ := List.mem_map.mp ha
    exact abs_nonneg b
  rcases lt_trichotomy l.sum 0 with hneg | hzero | hpos
  · exact absurd (List.sum_nonneg hl) (not_le.mpr hneg)
  · rw [hzero, div_zero, div_zero]
  · exact div_le_div_of_nonneg_right (take_sum_mono l hl hjk) hpos.le

/-- Counting a downward-closed predicate over `List.range D` yields an initial
segment: fewer than `count` means the predicate holds, and the predicate fails
at index `count` itself when `count < D`. -/
lemma countP_range_downclosed (P : ℕ → Prop) [DecidablePred P]
    (hdc : ∀ i j, i ≤ j → P j → P i) (D : ℕ) :
    (List.range D).countP (fun i => decide (P i)) ≤ D ∧
    (∀ i, i < (List.range D).countP (fun i => decide (P i)) → P i) ∧
    ((List.range D).countP (fun i => decide (P i)) < D →
      ¬ P ((List.range D).countP (fun i => decide (P i)))) := by
  induction D with
  | zero => simp
  | succ D ih =>
    rw [List.range_succ, List.countP_append]
    by_cases hD : P D
    · have hall : ∀ a ∈ List.range D, (fun i => decide (P i)) a = true := by
        intro a ha
        simp only [decide_eq_true_eq]
        exact hdc a D (Nat.le_of_lt (List.mem_range.mp ha)) hD
      have hcnt : (List.range D).countP (fun i => decide (P i)) = D := by
        rw [List.countP_eq_length.mpr hall, List.length_range]
      have hone : (List.countP (fun i => decide (P i)) [D]) = 1 := by simp [hD]
      rw [hcnt, hone]
      refine ⟨Nat.le_refl _, fun i hi => ?_, fun h => absurd h (Nat.lt_irrefl _)⟩
      exact hdc i D (Nat.lt_succ_iff.mp hi) hD
    · have hcD : (List.countP (fun i => decide (P i)) [D]) = 0 := by simp [hD]
      rw [hcD, Nat.add_zero]
      obtain ⟨h1, h2, h3⟩ := ih
      refine ⟨Nat.le_succ_of_le h1, h2, fun _ => ?_⟩
      rcases Nat.lt_or_ge ((List.range D).countP (fun i => decide (P i))) D with h | h
      · exact h3 h
      · have heq : (List.range D).countP (fun i => decide (P i)) = D := Nat.le_antisymm h1 h
        rw [heq]
        exact hD

/-- The retained-direction count of `_svd_reduction`, rewritten as a count of
indices whose cumulative mass fraction is below the accept rate. -/
lemma svd_reduction_keep_eq_countP (diag : List ℚ) (rate : ℚ) :
    svd_reduction_keep diag rate =
      (List.range diag.length).countP
        (fun k => decide (prefixMassFrac diag (k + 1) < rate)) := by
  unfold svd_reduction_keep cumsum prefixMassFrac
  rw [List.length_map, List.map_map, List.countP_map]
  rfl

/-- **C2, amended claim.** `_svd_reduction` keeps the directions of the longest
prefix on which every cumulative normalized singular-value mass stays strictly
below `accept_rate`: every kept index has mass fraction `< accept_rate`, and if
any direction is dropped, keeping one more would reach `accept_rate` — i.e. the
kept count is one fewer than the smallest count whose mass reaches
`accept_rate`.  In particular, whenever even the first direction alone reaches
`accept_rate` (which is eventually the case as `accept_rate → 0`), the retained
dimensionality is `0`, not `1`. -/
theorem svd_reduction_keep_characterization (diag : List ℚ) (rate : ℚ) :
    svd_reduction_keep diag rate ≤ diag.length ∧
    (∀ k, k < svd_reduction_keep diag rate → prefixMassFrac diag (k + 1) < rate) ∧
    (svd_reduction_keep diag rate < diag.length →
      rate ≤ prefixMassFrac diag (svd_reduction_keep diag rate + 1)) ∧
    (rate ≤ prefixMassFrac diag 1 → svd_reduction_keep diag rate = 0) := by
  have hdc : ∀ i j, i ≤ j → prefixMassFrac diag (j + 1) < rate →
      prefixMassFrac diag (i + 1) < rate := by
    intro i j hij hj
    exact lt_of_le_of_lt (prefixMassFrac_mono diag (Nat.add_le_add_right hij 1)) hj
  obtain ⟨h1, h2, h3⟩ :=
    countP_range_downclosed (fun k => prefixMassFrac diag (k + 1) < rate) hdc diag.length
  rw [svd_reduction_keep_eq_countP]
  refine ⟨h1, h2, fun hlt => not_lt.mp (h3 hlt), fun hrate => ?_⟩
  by_contra hne
  have h0 : 0 < (List.range diag.length).countP
      (fun k => decide (prefixMassFrac diag (k + 1) < rate)) := Nat.pos_of_ne_zero hne
  exact absurd (h2 0 h0) (not_lt.mpr hrate)

/-- Witness for `svd_reduction_keep_characterization` at singular values
`(2, 1, 1)` and `accept_rate = 3/4`: one direction is kept (mass `1/2 < 3/4`),
and keeping a second would reach mass `3/4`. -/
theorem svd_reduction_keep_characterization_witness :
    prefixMassFrac [2, 1, 1] (0 + 1) < 3 / 4 ∧
    (3 / 4 : ℚ) ≤ prefixMassFrac [2, 1, 1] (svd_reduction_keep [2, 1, 1] (3 / 4) + 1) :=
  ⟨(svd_reduction_keep_characterization [2, 1, 1] (3 / 4)).2.1 0 (by
      norm_num [svd_reduction_keep, cumsum, List.range_succ, List.countP_cons,
        List.countP_nil]),
   (svd_reduction_keep_characterization [2, 1, 1] (3 / 4)).2.2.1 (by
      norm_num [svd_reduction_keep, cumsum, List.range_succ, List.countP_cons,
        List.countP_nil])⟩

/-- **C2, counterexample.** With singular values `(1, 1)` and
`accept_rate = 1/4`, the first direction alone already carries mass
`1/2 ≥ 1/4`, so by the claim's rule ("smallest number of directions whose
cumulative mass reaches `accept_rate`", "never 0") one direction should be
retained — but `_svd_reduction` retains `0` directions, and the projected
matrix `input @ right[:, :0]` has `0` columns. -/
theorem svd_reduction_shrinks_to_zero_counterexample :
    svd_reduction_keep [1, 1] (1 / 4) = 0 ∧
    (1 / 4 : ℚ) ≤ prefixMassFrac [1, 1] 1 ∧
    (svd_reduction ⟨2, 2, fun _ _ => 1⟩ ⟨2, 2, fun i j => if i = j then 1 else 0⟩
        [1, 1] (1 / 4)).cols = 0 := by
  have hkeep : svd_reduction_keep [1, 1] (1 / 4) = 0 := by
    norm_num [svd_reduction_keep, cumsum, List.range_succ, List.countP_cons,
      List.countP_nil]
  refine ⟨hkeep, by norm_num [prefixMassFrac], ?_⟩
  show min (svd_reduction_keep [1, 1] (1 / 4)) 2 = 0
  rw [hkeep]
  rfl

/-! ## C3: `cca` fails on mismatched row counts -/

/-- **C3.** For every pair of matrices whose row counts differ, and every
backend string (valid or not) and every pair of decomposition backends, `cca`
fails with the shape-mismatch error: the `assert` on `x.size(0) == y.size(0)`
fires before the backend check and before any decomposition backend is
invoked, and no result is returned. -/
theorem cca_row_mismatch_fails (cca_by_svd cca_by_qr : Mat → Mat → CcaTriple)
    (x y : Mat) (backend : String) (h : x.rows ≠ y.rows) :
    cca cca_by_svd cca_by_qr x y backend = .error .shapeMismatch := by
  unfold cca
  rw [if_pos h]

/-- Witness for `cca_row_mismatch_fails`: a 5-row and a 7-row matrix, as in the
spec's testable property. -/
theorem cca_row_mismatch_fails_witness :
    (Mat.mk 5 3 fun _ _ => 1).rows ≠ (Mat.mk 7 3 fun _ _ => 1).rows ∧
    cca (fun _ _ => ⟨⟨0, 0, fun _ _ => 0⟩, ⟨0, 0, fun _ _ => 0⟩, []⟩)
        (fun _ _ => ⟨⟨0, 0, fun _ _ => 0⟩, ⟨0, 0, fun _ _ => 0⟩, []⟩)
        (Mat.mk 5 3 fun _ _ => 1) (Mat.mk 7 3 fun _ _ => 1) "svd" =
      .error .shapeMismatch :=
  ⟨by decide, cca_row_mismatch_fails _ _ _ _ _ (by decide)⟩

/-! ## C4 and C9: debiased linear CKA (similarity.py lines 201–250)

The `reduce_bias=True` branch of `linear_cka_distance` is exact rational
arithmetic (the only square root in the function, `.norm('fro')`, is squared
again with `.pow_(2)` before use), so it embeds directly over `ℚ`-matrices. -/

/-- `_zero_mean(x, dim=0)` on a shape-indexed matrix. -/
def zero_mean {n d : ℕ} (x : Matrix (Fin n) (Fin d) ℚ) : Matrix (Fin n) (Fin d) ℚ :=
  fun i j => x i j - (∑ k, x k j) / (n : ℚ)

/-- Squared Frobenius norm `m.norm('fro').pow(2)` of a rational matrix. -/
def sq_frobenius {a b : ℕ} (m : Matrix (Fin a) (Fin b) ℚ) : ℚ :=
  ∑ i, ∑ j, m i j * m i j

/-- `torch.einsum('ij,ij->i', x, x)`: the vector of per-row squared norms. -/
def sum_row {n d : ℕ} (x : Matrix (Fin n) (Fin d) ℚ) : Fin n → ℚ :=
  fun i => ∑ j, x i j * x i j

/-- `_debiased_dot_product_similarity` (similarity.py lines 201–210):
`z − size/(size−2) · (sum_row_x ⬝ sum_row_y) + sq_norm_x·sq_norm_y/((size−1)(size−2))`. -/
def debiased_dot_product_similarity {n : ℕ} (z : ℚ) (sum_row_x sum_row_y : Fin n → ℚ)
    (sq_norm_x sq_norm_y : ℚ) (size : ℚ) : ℚ :=
  z - size / (size - 2) * (∑ i, sum_row_x i * sum_row_y i)
    + sq_norm_x * sq_norm_y / ((size - 1) * (size - 2))

/-- The `reduce_bias=True` branch of `linear_cka_distance` (similarity.py
lines 213–250): center both inputs, form `dot_prod = ‖yᵗx‖_F²`,
`norm_x² = ‖xᵗx‖_F²`, `norm_y² = ‖yᵗy‖_F²`, debias all three with
`_debiased_dot_product_similarity`, and return
`1 − dot_prod/(norm_x·norm_y)` on the debiased values. -/
def linear_cka_distance_debiased {n d1 d2 : ℕ} (x : Matrix (Fin n) (Fin d1) ℚ)
    (y : Matrix (Fin n) (Fin d2) ℚ) : ℚ :=
  let xc := zero_mean x
  let yc := zero_mean y
  let dot_prod := sq_frobenius (yc.transpose * xc)
  let norm_x_sq := sq_frobenius (xc.transpose * xc)
  let norm_y_sq := sq_frobenius (yc.transpose * yc)
  let sum_row_x := sum_row xc
  let sum_row_y := sum_row yc
  let sq_norm_x := ∑ i, sum_row_x i
  let sq_norm_y := ∑ i, sum_row_y i
  let dot_prod' := debiased_dot_product_similarity dot_prod sum_row_x sum_row_y
    sq_norm_x sq_norm_y (n : ℚ)
  let norm_x' := debiased_dot_product_similarity norm_x_sq sum_row_x sum_row_y
    sq_norm_x sq_norm_y (n : ℚ)
  let norm_y' := debiased_dot_product_similarity norm_y_sq sum_row_x sum_row_y
    sq_norm_x sq_norm_y (n : ℚ)
  1 - dot_prod' / (norm_x' * norm_y')

/-- The claim's correction formula, written from the spec's words:
`corrected(z) = z − N/(N−2)·(row_sums_x ⬝ row_sums_y)
+ (Σ row_sums_x)(Σ row_sums_y)/((N−1)(N−2))`. -/
def ckaCorrectedSpec {n : ℕ} (N : ℚ) (rx ry : Fin n → ℚ) (z : ℚ) : ℚ :=
  z - N / (N - 2) * (Matrix.dotProduct rx ry)
    + (∑ i, rx i) * (∑ i, ry i) / ((N - 1) * (N - 2))

/-- The claim's "per-row squared norms" of a matrix. -/
def rowSquaredNorms {n d : ℕ} (m : Matrix (Fin n) (Fin d) ℚ) : Fin n → ℚ :=
  fun i => ∑ j, m i j ^ 2

/-- The squared Frobenius norm written via the Gram trace, `‖m‖_F² = tr(mᵀm)`. -/
def sqFroTrace {a b : ℕ} (m : Matrix (Fin a) (Fin b) ℚ) : ℚ :=
  Matrix.trace (m.transpose * m)

lemma sq_frobenius_eq_trace {a b : ℕ} (m : Matrix (Fin a) (Fin b) ℚ) :
    sq_frobenius m = sqFroTrace m := by
  unfold sq_frobenius sqFroTrace Matrix.trace
  rw [Finset.sum_comm]
  apply Finset.sum_congr rfl
  intro j _
  rw [Matrix.diag_apply, Matrix.mul_apply]
  apply Finset.sum_congr rfl
  intro i _
  rw [Matrix.transpose_apply]

lemma sum_row_eq_rowSquaredNorms {n d : ℕ} (m : Matrix (Fin n) (Fin d) ℚ) :
    sum_row m = rowSquaredNorms m := by
  funext i
  unfold sum_row rowSquaredNorms
  apply Finset.sum_congr rfl
  intro j _
  rw [sq]

/-- **C4.** With `reduce_bias=True`, `linear_cka_distance` applies the spec's
correction `corrected(z) = z − N/(N−2)·(row_sums_x ⬝ row_sums_y)
+ (Σ row_sums_x)(Σ row_sums_y)/((N−1)(N−2))` — where `row_sums_x`,
`row_sums_y` are the per-row squared norms of the centered inputs and `N` is
the row count — independently to `dot_prod = ‖y_cᵀ·x_c‖_F²`,
`norm_x² = ‖x_cᵀ·x_c‖_F²` and `norm_y² = ‖y_cᵀ·y_c‖_F²`, and returns
`1 − corrected(dot_prod)/(corrected(norm_x²)·corrected(norm_y²))`, the
corrected norms combined by plain multiplication as in the unbiased formula. -/
theorem linear_cka_distance_debiased_formula {n d1 d2 : ℕ}
    (x : Matrix (Fin n) (Fin d1) ℚ) (y : Matrix (Fin n) (Fin d2) ℚ) :
    linear_cka_distance_debiased x y =
      1 - ckaCorrectedSpec (n : ℚ) (rowSquaredNorms (zero_mean x))
            (rowSquaredNorms (zero_mean y))
            (sqFroTrace ((zero_mean y).transpose * zero_mean x))
        / (ckaCorrectedSpec (n : ℚ) (rowSquaredNorms (zero_mean x))
              (rowSquaredNorms (zero_mean y))
              (sqFroTrace ((zero_mean x).transpose * zero_mean x))
          * ckaCorrectedSpec (n : ℚ) (rowSquaredNorms (zero_mean x))
              (rowSquaredNorms (zero_mean y))
              (sqFroTrace ((zero_mean y).transpose * zero_mean y))) := by
  unfold linear_cka_distance_debiased
  simp only [sq_frobenius_eq_trace, sum_row_eq_rowSquaredNorms]
  unfold ckaCorrectedSpec debiased_dot_product_similarity Matrix.dotProduct
  rfl

/-- The only failure the debiased branch can hit: a zero divisor in the
correction term (Python raises `ZeroDivisionError` at `size / (size - 2)` for
`N = 2`, and divides a tensor by `(size-1)*(size-2) = 0` for `N = 1`). -/
inductive DebiasedCkaError where
  | zeroDivisor
  deriving DecidableEq, Repr

/-- `linear_cka_distance(x, y, reduce_bias=True)` with the division-by-zero
condition of the two correction divisors `N−2` and `(N−1)(N−2)` made explicit:
the source has no guard, so the computation is well-defined exactly when both
divisors are non-zero; otherwise the result is undefined (modelled as an
error). -/
def linear_cka_distance_debiased_checked {n d1 d2 : ℕ} (x : Matrix (Fin n) (Fin d1) ℚ)
    (y : Matrix (Fin n) (Fin d2) ℚ) : Except DebiasedCkaError ℚ :=
  if (n : ℚ) - 2 = 0 ∨ ((n : ℚ) - 1) * ((n : ℚ) - 2) = 0 then .error .zeroDivisor
  else .ok (linear_cka_distance_debiased x y)

/-- **C9.** The debiased CKA correction divides by `N−2` and `(N−1)(N−2)` with
no guard in the source: under the caller precondition `N > 2` both divisors
are non-zero and the division-by-zero condition is unreachable, while invoking
it with `1 ≤ N ≤ 2` data points hits a zero divisor (undefined result). -/
theorem linear_cka_debiased_divisor_guard {n d1 d2 : ℕ} (x : Matrix (Fin n) (Fin d1) ℚ)
    (y : Matrix (Fin n) (Fin d2) ℚ) :
    (2 < n → (n : ℚ) - 2 ≠ 0 ∧ ((n : ℚ) - 1) * ((n : ℚ) - 2) ≠ 0 ∧
      linear_cka_distance_debiased_checked x y = .ok (linear_cka_distance_debiased x y)) ∧
    (n ≤ 2 → 1 ≤ n → ((n : ℚ) - 2 = 0 ∨ ((n : ℚ) - 1) * ((n : ℚ) - 2) = 0) ∧
      linear_cka_distance_debiased_checked x y = .error .zeroDivisor) := by
  constructor
  · intro hn
    have h2 : (2 : ℚ) < (n : ℚ) := by exact_mod_cast hn
    have ha : (n : ℚ) - 2 ≠ 0 := by linarith
    have hb : ((n : ℚ) - 1) * ((n : ℚ) - 2) ≠ 0 :=
      mul_ne_zero (by linarith) ha
    refine ⟨ha, hb, ?_⟩
    unfold linear_cka_distance_debiased_checked
    rw [if_neg (by tauto)]
  · intro hn2 hn1
    interval_cases n
    · refine ⟨Or.inr (by norm_num), ?_⟩
      unfold linear_cka_distance_debiased_checked
      rw [if_pos (Or.inr (by norm_num))]
    · refine ⟨Or.inl (by norm_num), ?_⟩
      unfold linear_cka_distance_debiased_checked
      rw [if_pos (Or.inl (by norm_num))]

/-- Witness for `linear_cka_debiased_divisor_guard`: with `N = 3` rows the
checked computation succeeds, with `N = 2` rows it hits the zero divisor. -/
theorem linear_cka_debiased_divisor_guard_witness :
    (((3 : ℕ) : ℚ) - 2 ≠ 0 ∧ (((3 : ℕ) : ℚ) - 1) * (((3 : ℕ) : ℚ) - 2) ≠ 0 ∧
      linear_cka_distance_debiased_checked (fun _ _ => (0 : ℚ) : Matrix (Fin 3) (Fin 1) ℚ)
          (fun _ _ => (0 : ℚ) : Matrix (Fin 3) (Fin 1) ℚ) =
        .ok (linear_cka_distance_debiased (fun _ _ => (0 : ℚ) : Matrix (Fin 3) (Fin 1) ℚ)
          (fun _ _ => (0 : ℚ) : Matrix (Fin 3) (Fin 1) ℚ))) ∧
    ((((2 : ℕ) : ℚ) - 2 = 0 ∨ (((2 : ℕ) : ℚ) - 1) * (((2 : ℕ) : ℚ) - 2) = 0) ∧
      linear_cka_distance_debiased_checked (fun _ _ => (0 : ℚ) : Matrix (Fin 2) (Fin 1) ℚ)
          (fun _ _ => (0 : ℚ) : Matrix (Fin 2) (Fin 1) ℚ) = .error .zeroDivisor) :=
  ⟨(linear_cka_debiased_divisor_guard _ _).1 (by norm_num),
   (linear_cka_debiased_divisor_guard _ _).2 (by norm_num) (by norm_num)⟩

/-! ## Tensors of arbitrary rank, and `torch.roll`

`fourier.py` and the activation hook work on tensors of runtime rank, modelled
as a shape list plus a data function on index lists. -/

/-- A tensor of arbitrary rank: shape plus entries, indexed by index lists. -/
structure Tens where
  shape : List ℕ
  data : List ℕ → ℚ

/-- `t.dim()`. -/
def Tens.dim (t : Tens) : ℕ := t.shape.length

/-- `t.size(d)`. -/
def Tens.size (t : Tens) (d : ℕ) : ℕ := t.shape.getD d 0

/-- An index list is valid for a shape when it has the same rank and every
coordinate is within bounds. -/
def ValidIdx (shape : List ℕ) (idx : List ℕ) : Prop :=
  idx.length = shape.length ∧ ∀ p, p < idx.length → idx.getD p 0 < shape.getD p 0

/-- Tensor equality: same shape, same entries at every valid index. -/
def Tens.EqOn (a b : Tens) : Prop :=
  a.shape = b.shape ∧ ∀ idx, ValidIdx a.shape idx → a.data idx = b.data idx

/-- The total circular shift `torch.roll` applies to axis `p`: the sum of the
shifts paired with every occurrence of `p` in `dims`. -/
def totalShift (shifts : List ℤ) (dims : List ℕ) (p : ℕ) : ℤ :=
  (((shifts.zip dims).filter (fun sd => sd.2 = p)).map (fun sd => sd.1)).sum

/-- One rolled coordinate: reading position of output position `i` under a
circular shift by `shift` in a dimension of extent `size`. -/
def rollCoord (size : ℕ) (shift : ℤ) (i : ℕ) : ℕ :=
  (((i : ℤ) - shift) % (size : ℤ)).toNat

/-- Rolled source index, coordinate by coordinate, starting at axis `p`. -/
def rollIndexFrom (shape : List ℕ) (shifts : List ℤ) (dims : List ℕ) :
    ℕ → List ℕ → List ℕ
  | _, [] => []
  | p, i :: rest =>
      rollCoord (shape.getD p 0) (totalShift shifts dims p) i ::
        rollIndexFrom shape shifts dims (p + 1) rest

/-- `torch.roll(input, shifts, dims)`: circular shift of the listed axes by
the paired amounts (accumulating when an axis is listed twice). -/
def Tens.roll (t : Tens) (shifts : List ℤ) (dims : List ℕ) : Tens :=
  ⟨t.shape, fun idx => t.data (rollIndexFrom t.shape shifts dims 0 idx)⟩

/-- `fft_shift(input, dims)` (fourier.py lines 11–27): when `dims` is `None`
it defaults to the spatial axes (`[1, 2]` for rank 4, else `[2, …, dim−2]`);
each listed axis is rolled by `input.size(dim) // 2`. -/
def fft_shift (input : Tens) (dims : Option (List ℕ)) : Tens :=
  let start := if input.dim = 4 then 1 else 2
  let ds := dims.getD (List.range' start (input.dim - 1 - start))
  input.roll (ds.map (fun d => ((input.size d / 2 : ℕ) : ℤ))) ds

/-- `ifft_shift(input, dims)` (fourier.py lines 30–46): when `dims` is `None`
it defaults to the same spatial axes in reverse order; each listed axis is
rolled by `-input.size(dim) // 2`, which in Python is the floor division
`⌊-size/2⌋` — for odd extents this is *not* the negation of `size // 2`. -/
def ifft_shift (input : Tens) (dims : Option (List ℕ)) : Tens :=
  let stop := if input.dim = 4 then 0 else 1
  let ds := dims.getD ((List.range' (stop + 1) (input.dim - 2 - stop)).reverse)
  input.roll (ds.map (fun d => Int.fdiv (-(input.size d : ℤ)) 2)) ds

lemma totalShift_map (f : ℕ → ℤ) (dims : List ℕ) (p : ℕ) :
    totalShift (dims.map f) dims p = (dims.count p : ℤ) * f p := by
  induction dims with
  | nil => simp [totalShift]
  | cons d ds ih =>
    unfold totalShift at ih ⊢
    rw [List.map_cons, List.zip_cons_cons, List.filter_cons]
    by_cases hdp : d = p
    · subst hdp
      simp only [decide_eq_true_eq, eq_self_iff_true, if_true, decide_True,
        List.map_cons, List.sum_cons, ih, List.count_cons_self]
      push_cast
      ring
    · have hpd : ¬ p = d := fun h => hdp h.symm
      simp [hdp, hpd, ih, List.count_cons]

lemma rollCoord_comp_cancel (n : ℕ) (s1 s2 : ℤ) (hsum : s1 + s2 = 0)
    {i : ℕ} (hi : i < n) :
    rollCoord n s1 (rollCoord n s2 i) = i := by
  have hn : (0 : ℤ) < (n : ℤ) := by exact_mod_cast Nat.lt_of_le_of_lt (Nat.zero_le i) hi
  unfold rollCoord
  have h1 : (0 : ℤ) ≤ ((i : ℤ) - s2) % (n : ℤ) := Int.emod_nonneg _ (by omega)
  rw [Int.toNat_of_nonneg h1]
  have key : (((i : ℤ) - s2) % (n : ℤ) - s1) % (n : ℤ) = ((i : ℤ) - s2 - s1) % (n : ℤ) := by
    rw [Int.sub_emod, Int.emod_emod_of_dvd _ (dvd_refl _), ← Int.sub_emod]
  rw [key]
  have hsub : (i : ℤ) - s2 - s1 = (i : ℤ) := by omega
  rw [hsub, Int.emod_eq_of_lt (by exact_mod_cast Nat.zero_le i) (by exact_mod_cast hi)]
  exact Int.toNat_natCast i

lemma rollIndexFrom_comp_cancel (shape : List ℕ) (shifts1 : List ℤ) (dims1 : List ℕ)
    (shifts2 : List ℤ) (dims2 : List ℕ)
    (hsum : ∀ q, totalShift shifts1 dims1 q + totalShift shifts2 dims2 q = 0) :
    ∀ (idx : List ℕ) (p : ℕ),
      (∀ j, j < idx.length → idx.getD j 0 < shape.getD (p + j) 0) →
      rollIndexFrom shape shifts1 dims1 p
        (rollIndexFrom shape shifts2 dims2 p idx) = idx := by
  intro idx
  induction idx with
  | nil => intro p _; rfl
  | cons i rest ih =>
    intro p hvalid
    have hi : i < shape.getD p 0 := by
      have := hvalid 0 (Nat.succ_pos _)
      simpa using this
    have hstep2 : rollIndexFrom shape shifts2 dims2 p (i :: rest) =
        rollCoord (shape.getD p 0) (totalShift shifts2 dims2 p) i ::
          rollIndexFrom shape shifts2 dims2 (p + 1) rest := rfl
    rw [hstep2]
    have hstep1 : rollIndexFrom shape shifts1 dims1 p
        (rollCoord (shape.getD p 0) (totalShift shifts2 dims2 p) i ::
          rollIndexFrom shape shifts2 dims2 (p + 1) rest) =
        rollCoord (shape.getD p 0) (totalShift shifts1 dims1 p)
            (rollCoord (shape.getD p 0) (totalShift shifts2 dims2 p) i) ::
          rollIndexFrom shape shifts1 dims1 (p + 1)
            (rollIndexFrom shape shifts2 dims2 (p + 1) rest) := rfl
    rw [hstep1]
    congr 1
    · exact rollCoord_comp_cancel _ _ _ (hsum p) hi
    · apply ih (p + 1)
      intro j hj
      have := hvalid (j + 1) (by simpa using Nat.succ_lt_succ hj)
      simpa [Nat.add_assoc, Nat.add_comm 1 j] using this

/-- For an axis of even extent, the `fft_shift` shift `size // 2` and the
`ifft_shift` shift `⌊-size/2⌋` cancel; axes outside `dims` are not shifted. -/
lemma fft_ifft_shift_sum_zero (t : Tens) (dims : List ℕ)
    (heven : ∀ d ∈ dims, t.size d % 2 = 0) (q : ℕ) :
    totalShift (dims.map (fun d => ((t.size d / 2 : ℕ) : ℤ))) dims q +
      totalShift (dims.map (fun d => Int.fdiv (-(t.size d : ℤ)) 2)) dims q = 0 := by
  rw [totalShift_map, totalShift_map, ← mul_add]
  rcases Nat.eq_zero_or_pos (dims.count q) with h0 | hpos
  · rw [h0]
    simp
  · have hq : q ∈ dims := List.count_pos_iff.mp hpos
    suffices h : ((t.size q / 2 : ℕ) : ℤ) + Int.fdiv (-(t.size q : ℤ)) 2 = 0 by
      rw [h, mul_zero]
    have hdvd : 2 ∣ t.size q := Nat.dvd_of_mod_eq_zero (heven q hq)
    obtain ⟨m, hm⟩ := hdvd
    rw [hm]
    have h1 : ((2 * m) / 2 : ℕ) = m := by omega
    have h2 : (-(((2 * m : ℕ) : ℤ))) = 2 * (-(m : ℤ)) := by push_cast; ring
    rw [h1, h2, Int.mul_fdiv_cancel_left _ (by norm_num)]
    ring

/-- **C6, amended claim.** On tensors whose extents along the shifted axes are
all even, `fft_shift` followed by `ifft_shift` over the same axes — and vice
versa — returns the original tensor.  (For an odd extent the two shifts do not
cancel, see the counterexample: the round trip is then a net circular shift.) -/
theorem fft_shift_ifft_shift_inverse_even (t : Tens) (dims : List ℕ)
    (heven : ∀ d ∈ dims, t.size d % 2 = 0) :
    Tens.EqOn (ifft_shift (fft_shift t (some dims)) (some dims)) t ∧
    Tens.EqOn (fft_shift (ifft_shift t (some dims)) (some dims)) t := by
  have hsum := fft_ifft_shift_sum_zero t dims heven
  constructor
  · refine ⟨rfl, fun idx hvalid => ?_⟩
    show t.data (rollIndexFrom t.shape _ dims 0 (rollIndexFrom t.shape _ dims 0 idx)) =
      t.data idx
    congr 1
    apply rollIndexFrom_comp_cancel _ _ _ _ _ hsum idx 0
    intro j hj
    simpa using hvalid.2 j hj
  · refine ⟨rfl, fun idx hvalid => ?_⟩
    show t.data (rollIndexFrom t.shape _ dims 0 (rollIndexFrom t.shape _ dims 0 idx)) =
      t.data idx
    congr 1
    have hsum' : ∀ q,
        totalShift (dims.map (fun d => Int.fdiv (-(t.size d : ℤ)) 2)) dims q +
          totalShift (dims.map (fun d => ((t.size d / 2 : ℕ) : ℤ))) dims q = 0 := by
      intro q
      have := hsum q
      omega
    exact rollIndexFrom_comp_cancel t.shape _ _ _ _ hsum' idx 0
      (fun j hj => by simpa using hvalid.2 j hj)

/-- Witness for `fft_shift_ifft_shift_inverse_even`: a rank-1 tensor of even
extent 2, shifted along axis 0, returns to itself at index `[0]`. -/
theorem fft_shift_ifft_shift_inverse_even_witness :
    (∀ d ∈ [0], (Tens.mk [2] fun idx => if idx.getD 0 0 = 0 then 1 else 0).size d % 2 = 0) ∧
    (ifft_shift (fft_shift (Tens.mk [2] fun idx => if idx.getD 0 0 = 0 then 1 else 0)
        (some [0])) (some [0])).data [0] =
      (Tens.mk [2] fun idx => if idx.getD 0 0 = 0 then (1 : ℚ) else 0).data [0] := by
  refine ⟨by decide, ?_⟩
  exact (fft_shift_ifft_shift_inverse_even
      (Tens.mk [2] fun idx => if idx.getD 0 0 = 0 then 1 else 0) [0]
      (by decide)).1.2 [0]
    ⟨rfl, fun p hp => by
      have hp0 : p = 0 := Nat.lt_one_iff.mp (by simpa using hp)
      subst hp0
      show (0 : ℕ) < 2
      decide⟩

/-- **C6, counterexample.** On a rank-1 tensor of odd extent 3, `fft_shift`
rolls by `3 // 2 = 1` while `ifft_shift` rolls by `⌊-3/2⌋ = -2`, so the round
trip is a net circular shift by `-1`, not the identity: at index `[0]` the
original holds `1` but the round trip yields `0`. -/
theorem fft_shift_ifft_shift_odd_counterexample :
    (ifft_shift (fft_shift (Tens.mk [3] fun idx => if idx.getD 0 0 = 0 then 1 else 0)
        (some [0])) (some [0])).data [0] ≠
      (Tens.mk [3] fun idx => if idx.getD 0 0 = 0 then (1 : ℚ) else 0).data [0] := by
  show (if ((2 : ℕ) = 0) then (1 : ℚ) else 0) ≠ (if ((0 : ℕ) = 0) then (1 : ℚ) else 0)
  norm_num

/-! ## C8: the `SimilarityHook` activation buffer (similarity.py lines 302–353)

`__init__` sets `self._hooked_tensors = None`; the registered forward hook
checks the output rank, then either initializes the buffer or concatenates
along dimension 0; `clear()` resets it to `None`. -/

/-- `torch.cat([a, b], dim=0)`: defined when both tensors have rank ≥ 1 and
agree on every non-leading extent; the rows of `b` follow those of `a`. -/
def catDim0 (a b : Tens) : Option Tens :=
  if a.shape.tail = b.shape.tail ∧ a.shape ≠ [] ∧ b.shape ≠ [] then
    some ⟨(a.shape.headD 0 + b.shape.headD 0) :: a.shape.tail,
      fun idx =>
        if idx.getD 0 0 < a.shape.headD 0 then a.data idx
        else b.data ((idx.getD 0 0 - a.shape.headD 0) :: idx.tail)⟩
  else none

/-- The error raised by the forward hook on a tensor of unsupported rank, or
by `torch.cat` on incompatible shapes. -/
inductive CaptureError where
  | unsupportedRank
  | catShapeMismatch
  deriving DecidableEq, Repr

/-- The state of one `SimilarityHook`: its accumulating buffer
`self._hooked_tensors`, absent until the first capture. -/
structure Hook where
  hooked_tensors : Option Tens

/-- `__init__` (similarity.py line 326): the buffer starts absent. -/
def Hook.init : Hook := ⟨none⟩

/-- One firing of the registered forward hook (similarity.py lines 331–344):
raise unless the output rank is 2 or 4 (`_supported_dim`); otherwise
initialize the buffer with the output, or concatenate the output to it along
dimension 0. -/
def Hook.captureEvent (h : Hook) (output : Tens) : Except CaptureError Hook :=
  if output.dim ≠ 2 ∧ output.dim ≠ 4 then .error .unsupportedRank
  else
    match h.hooked_tensors with
    | none => .ok ⟨some output⟩
    | some acc =>
      match catDim0 acc output with
      | some t => .ok ⟨some t⟩
      | none => .error .catShapeMismatch

/-- `clear()` (similarity.py lines 348–353). -/
def Hook.clear (_ : Hook) : Hook := ⟨none⟩

/-- The operations that touch the buffer. -/
inductive HookEvent where
  | capture (t : Tens)
  | clearEvent

/-- State transition of the buffer under one event; a raising capture leaves
the state unchanged (the exception propagates before any assignment). -/
def Hook.step (h : Hook) (e : HookEvent) : Hook :=
  match e with
  | .capture t =>
    match h.captureEvent t with
    | .ok h' => h'
    | .error _ => h
  | .clearEvent => h.clear

/-- **C8.** The buffer lifecycle invariant: it starts absent at attach time;
a capture event carrying a rank-2 or rank-4 tensor either initializes the
buffer to that tensor or grows it by concatenation along dimension 0; and no
operation other than an explicit `clear()` ever empties a non-empty buffer. -/
theorem hook_buffer_lifecycle :
    Hook.init.hooked_tensors = none ∧
    (∀ (h : Hook) (t : Tens), t.dim = 2 ∨ t.dim = 4 →
      (h.hooked_tensors = none → h.captureEvent t = .ok ⟨some t⟩) ∧
      (∀ acc c, h.hooked_tensors = some acc → catDim0 acc t = some c →
        h.captureEvent t = .ok ⟨some c⟩)) ∧
    (∀ (h : Hook) (e : HookEvent), h.hooked_tensors ≠ none →
      (h.step e).hooked_tensors = none → e = .clearEvent) := by
  refine ⟨rfl, fun h t hdim => ?_, fun h e hne hnone => ?_⟩
  · have hrank : ¬ (t.dim ≠ 2 ∧ t.dim ≠ 4) := by
      rcases hdim with h2 | h4
      · exact fun hc => hc.1 h2
      · exact fun hc => hc.2 h4
    constructor
    · intro hnone
      unfold Hook.captureEvent
      rw [if_neg hrank, hnone]
    · intro acc c hacc hcat
      unfold Hook.captureEvent
      rw [if_neg hrank, hacc]
      show (match catDim0 acc t with
        | some t' => Except.ok (Hook.mk (some t'))
        | none => Except.error CaptureError.catShapeMismatch) = _
      rw [hcat]
  · cases e with
    | clearEvent => rfl
    | capture t =>
      exfalso
      obtain ⟨acc, hacc⟩ := Option.ne_none_iff_exists'.mp hne
      have hnone' : (match h.captureEvent t with
          | Except.ok h' => h'
          | Except.error _ => h).hooked_tensors = none := hnone
      clear hnone
      rcases hcap : h.captureEvent t with herr | hok
      · rw [hcap] at hnone'
        exact hne hnone'
      · rw [hcap] at hnone'
        unfold Hook.captureEvent at hcap
        by_cases hrank : t.dim ≠ 2 ∧ t.dim ≠ 4
        · rw [if_pos hrank] at hcap
          exact Except.noConfusion hcap
        · rw [if_neg hrank, hacc] at hcap
          have hcap2 : (match catDim0 acc t with
              | some t' => Except.ok (Hook.mk (some t'))
              | none => Except.error CaptureError.catShapeMismatch) = Except.ok hok := hcap
          have hok_none : hok.hooked_tensors = none := hnone'
          rcases hcat : catDim0 acc t with _ | c
          · rw [hcat] at hcap2
            exact Except.noConfusion hcap2
          · rw [hcat] at hcap2
            have heq : Hook.mk (some c) = hok := by
              injection hcap2
            rw [← heq] at hok_none
            exact Option.noConfusion hok_none

/-- Witness for `hook_buffer_lifecycle` on concrete states: a first capture of
a rank-2 tensor initializes the buffer; a second capture concatenates
(`[1, 1]` then `[1, 1]` gives `[2, 1]` rows); a raising capture (rank 3) does
not empty the buffer, so only `clear` does. -/
theorem hook_buffer_lifecycle_witness :
    (Hook.mk none).captureEvent ⟨[1, 1], fun _ => 5⟩ =
      .ok ⟨some ⟨[1, 1], fun _ => 5⟩⟩ ∧
    (Hook.mk (some ⟨[1, 1], fun _ => 5⟩)).captureEvent ⟨[1, 1], fun _ => 7⟩ =
      .ok ⟨some ⟨[2, 1],
        fun idx => if idx.getD 0 0 < 1 then
          Tens.data ⟨[1, 1], fun _ => 5⟩ idx
        else Tens.data ⟨[1, 1], fun _ => 7⟩ ((idx.getD 0 0 - 1) :: idx.tail)⟩⟩ ∧
    HookEvent.clearEvent = HookEvent.clearEvent := by
  refine ⟨?_, ?_, rfl⟩
  · exact (hook_buffer_lifecycle.2.1 (Hook.mk none) ⟨[1, 1], fun _ => 5⟩
      (Or.inl rfl)).1 rfl
  · exact (hook_buffer_lifecycle.2.1 (Hook.mk (some ⟨[1, 1], fun _ => 5⟩))
      ⟨[1, 1], fun _ => 7⟩ (Or.inl rfl)).2 _ _ rfl rfl

/-! ## C1: `SimilarityHook.distance` (similarity.py lines 390–441)

The method returns `self.cca_function(...).item()` on rank-2 buffers.  On
rank-4 buffers it dispatches on `effecive_neuron_type`; the default
`'filter'` branch's body is only the comment `[M, C, H, W] -> [M*H*W, C]` and
the statement `pass`, after which control falls off the end of the method —
Python then returns `None`.  The embedding returns `Option ℚ` to capture this:
`none` is Python's implicit `None`. -/

/-- The exceptions `distance` can raise: `hooked_tensors` on an empty buffer,
the two `RuntimeError` shape checks, the `assert False` of the untested
`'activation'` branch, and the `ValueError` for an unknown neuron type. -/
inductive DistanceError where
  | uninitialized
  | rowMismatch
  | dimMismatch
  | assertionFalse
  | invalidNeuronType
  deriving DecidableEq, Repr

/-- `SimilarityHook.distance(self, other, effecive_neuron_type=...)`.
`cca_function` is the configured distance backend (`pwcca`/`svcca`/`lincka`/
`opd` — all of them scalar-valued) and `original_anatome_result` stands for
the value computed by the separate `'original_anatome'` path; both are
irrelevant to the `'filter'` branch, which returns `None`. -/
def SimilarityHook.distance (cca_function : Tens → Tens → ℚ)
    (original_anatome_result : ℚ) (self other : Hook)
    (effecive_neuron_type : String) : Except DistanceError (Option ℚ) :=
  match self.hooked_tensors, other.hooked_tensors with
  | none, _ => .error .uninitialized
  | _, none => .error .uninitialized
  | some self_tensor, some other_tensor =>
    if self_tensor.size 0 ≠ other_tensor.size 0 then .error .rowMismatch
    else if self_tensor.dim ≠ other_tensor.dim then .error .dimMismatch
    else if self_tensor.dim = 2 then
      .ok (some (cca_function self_tensor other_tensor))
    else if effecive_neuron_type = "filter" then
      -- the `'filter'` branch body is `pass`: the method ends, returning `None`
      .ok none
    else if effecive_neuron_type = "activation" then .error .assertionFalse
    else if effecive_neuron_type = "original_anatome" then
      .ok (some original_anatome_result)
    else .error .invalidNeuronType

/-- **C1 (refuted by the code).** With the default
`effecive_neuron_type = 'filter'` and two identically-filled rank-4 buffers of
equal row count, `distance` returns Python's `None` — not a real scalar
distance of `0` — whatever distance backend is configured: the `'filter'`
branch never reshapes and never invokes `cca_function`. -/
theorem distance_filter_rank4_returns_none (cca_function : Tens → Tens → ℚ)
    (original_anatome_result : ℚ) :
    SimilarityHook.distance cca_function original_anatome_result
        ⟨some ⟨[1, 1, 1, 1], fun _ => 0⟩⟩ ⟨some ⟨[1, 1, 1, 1], fun _ => 0⟩⟩
        "filter" =
      .ok none := rfl

/-! ## C10: `add_fourier_noise` (fourier.py lines 63–95)

The function's in-place tensor operations (`noise[...] = 1`, `recon.div_`,
`recon.mul_`, `images.add_`, `images.clamp_`) are modelled on an explicit
buffer heap, so that "never modifies its input" is a real statement about
which buffer each statement writes to.  The FFT reconstruction, the `p=2`
norm, and `F.interpolate` are substrate, taken as oracle arguments. -/

/-- A default (empty) tensor for out-of-range heap reads. -/
def Tens.empty : Tens := ⟨[], fun _ => 0⟩

/-- `noise[:, i, j] = 1`: set every entry whose axis-1/axis-2 coordinates are
`(i, j)` (all batch and last-axis positions) to `1`. -/
def setAt (t : Tens) (i j : ℕ) : Tens :=
  ⟨t.shape, fun ix => if ix.getD 1 0 = i ∧ ix.getD 2 0 = j then 1 else t.data ix⟩

/-- `recon.div_(a).mul_(c)`: scale every entry by `c / a`. -/
def scaleT (t : Tens) (a c : ℚ) : Tens :=
  ⟨t.shape, fun ix => t.data ix / a * c⟩

/-- `images.add_(recon)` where `recon` broadcasts from shape `(1, 1, h, w)`
over the batch and channel axes of `images`. -/
def addBroadcast (images recon : Tens) : Tens :=
  ⟨images.shape, fun ix => images.data ix + recon.data [0, 0, ix.getD 2 0, ix.getD 3 0]⟩

/-- `.clamp_(0, 1)`. -/
def clampT (lo hi : ℚ) (t : Tens) : Tens :=
  ⟨t.shape, fun ix => min hi (max lo (t.data ix))⟩

/-- `add_fourier_noise(idx, images, norm, size)`.  `imagesRef` is the caller's
`images` buffer on the heap of caller-visible buffers; the result is the final
heap together with the buffer reference the function returns.  `images =
images.clone()` allocates a fresh buffer, and the final
`images.add_(recon).clamp_(0, 1)` mutates that clone in place.  The
function-local temporaries `noise` and `recon` are fresh allocations
(`new_zeros`, `irfft`, `F.interpolate`) never aliased to a caller buffer, so
their in-place updates (`noise[...] = 1`, `recon.div_(...).mul_(...)`) are
modelled functionally.  `irfft` stands for the substrate call
`.irfft(2, normalized=True, onesided=False).unsqueeze(0)`, `l2norm` for
`recon.norm(p=2)`, `interpolate` for `F.interpolate`. -/
def add_fourier_noise (irfft : Tens → Tens) (l2norm : Tens → ℚ)
    (interpolate : Tens → List ℕ → Tens) (idx : ℕ × ℕ) (heap : List Tens)
    (imagesRef : ℕ) (norm : ℚ) (size : Option (ℕ × ℕ)) : List Tens × ℕ :=
  let images0 := heap.getD imagesRef Tens.empty
  -- images = images.clone(): allocate a fresh buffer holding the same tensor
  let cloneRef := heap.length
  let heap1 := heap ++ [images0]
  let hw := match size with
    | none => (images0.size 2, images0.size 3)
    | some s => s
  -- noise = images.new_zeros(1, h, w, 2); noise[:, idx[0], idx[1]] = 1;
  -- noise[:, h - 1 - idx[0], w - 1 - idx[1]] = 1
  let noise := setAt (setAt ⟨[1, hw.1, hw.2, 2], fun _ => 0⟩ idx.1 idx.2)
    (hw.1 - 1 - idx.1) (hw.2 - 1 - idx.2)
  -- recon = ifft_shift(noise).irfft(2, normalized=True, onesided=False).unsqueeze(0)
  let recon0 := irfft (ifft_shift noise none)
  -- recon.div_(recon.norm(p=2)).mul_(norm)
  let recon1 := scaleT recon0 (l2norm recon0) norm
  -- if size is not None: recon = F.interpolate(recon, images.shape[2:])
  let recon2 := match size with
    | none => recon1
    | some _ => interpolate recon1 [images0.size 2, images0.size 3]
  -- images.add_(recon).clamp_(0, 1): in-place on the clone; return images
  let heap2 := heap1.set cloneRef (clampT 0 1 (addBroadcast images0 recon2))
  (heap2, cloneRef)

lemma getD_set_ne (l : List Tens) (i j : ℕ) (v : Tens) (hij : j ≠ i) :
    (l.set j v).getD i Tens.empty = l.getD i Tens.empty := by
  simp [List.getD, List.getElem?_set_ne hij]

lemma getD_set_self (l : List Tens) (j : ℕ) (v : Tens) (hj : j < l.length) :
    (l.set j v).getD j Tens.empty = v := by
  simp [List.getD, List.getElem?_set_self hj]

/-- **C10.** `add_fourier_noise` never modifies its input: the caller's
`images` buffer holds the same tensor after the call (every in-place update
targets the clone or a freshly allocated buffer), the returned buffer is a
different buffer from the input, and — because the last statement clamps to
`[0, 1]` — every entry of the returned tensor lies in `[0, 1]`. -/
theorem add_fourier_noise_pure (irfft : Tens → Tens) (l2norm : Tens → ℚ)
    (interpolate : Tens → List ℕ → Tens) (idx : ℕ × ℕ) (heap : List Tens)
    (imagesRef : ℕ) (norm : ℚ) (size : Option (ℕ × ℕ))
    (h : imagesRef < heap.length) :
    (add_fourier_noise irfft l2norm interpolate idx heap imagesRef norm size).1.getD
        imagesRef Tens.empty = heap.getD imagesRef Tens.empty ∧
    (add_fourier_noise irfft l2norm interpolate idx heap imagesRef norm size).2 ≠
      imagesRef ∧
    (∀ ix : List ℕ,
      0 ≤ ((add_fourier_noise irfft l2norm interpolate idx heap imagesRef norm
          size).1.getD
        ((add_fourier_noise irfft l2norm interpolate idx heap imagesRef norm
          size).2) Tens.empty).data ix ∧
      ((add_fourier_noise irfft l2norm interpolate idx heap imagesRef norm
          size).1.getD
        ((add_fourier_noise irfft l2norm interpolate idx heap imagesRef norm
          size).2) Tens.empty).data ix ≤ 1) := by
  simp only [add_fourier_noise]
  refine ⟨?_, by omega, fun ix => ?_⟩
  · rw [getD_set_ne _ _ _ _ (by omega)]
    exact List.getD_append heap _ Tens.empty imagesRef h
  · rw [getD_set_self _ _ _ (by simp)]
    exact ⟨le_min (by norm_num) (le_max_left 0 _), min_le_left _ _⟩

/-- Witness for `add_fourier_noise_pure`: one image buffer of shape
`[1, 1, 2, 2]` filled with `1/2`, perturbed at frequency index `(0, 0)` with
identity substrate oracles. -/
theorem add_fourier_noise_pure_witness :
    (add_fourier_noise id (fun _ => 1) (fun t _ => t) (0, 0)
        [Tens.mk [1, 1, 2, 2] (fun _ => 1 / 2)] 0 1 none).1.getD 0 Tens.empty =
      [Tens.mk [1, 1, 2, 2] (fun _ => 1 / 2)].getD 0 Tens.empty ∧
    (add_fourier_noise id (fun _ => 1) (fun t _ => t) (0, 0)
        [Tens.mk [1, 1, 2, 2] (fun _ => 1 / 2)] 0 1 none).2 ≠ 0 ∧
    (∀ ix : List ℕ,
      0 ≤ ((add_fourier_noise id (fun _ => 1) (fun t _ => t) (0, 0)
          [Tens.mk [1, 1, 2, 2] (fun _ => 1 / 2)] 0 1 none).1.getD
        ((add_fourier_noise id (fun _ => 1) (fun t _ => t) (0, 0)
          [Tens.mk [1, 1, 2, 2] (fun _ => 1 / 2)] 0 1 none).2) Tens.empty).data ix ∧
      ((add_fourier_noise id (fun _ => 1) (fun t _ => t) (0, 0)
          [Tens.mk [1, 1, 2, 2] (fun _ => 1 / 2)] 0 1 none).1.getD
        ((add_fourier_noise id (fun _ => 1) (fun t _ => t) (0, 0)
          [Tens.mk [1, 1, 2, 2] (fun _ => 1 / 2)] 0 1 none).2) Tens.empty).data ix ≤ 1) :=
  add_fourier_noise_pure id (fun _ => 1) (fun t _ => t) (0, 0)
    [Tens.mk [1, 1, 2, 2] (fun _ => 1 / 2)] 0 1 none (by decide)

/-! ## C7: asymmetry of `pwcca_distance` (similarity.py lines 180–198)

`pwcca_distance(x, y, 'svd')` runs `cca` (which centers both inputs and calls
`cca_by_svd`, lines 43–65) and reweights the canonical correlations by
`alpha = (x @ a).abs().sum(dim=0)`, normalized.  The SVDs themselves are
substrate (`_svd`), so the embedding takes the decomposition data of the two
inputs and of the cross matrix `u₁ᵀu₂` as arguments, each constrained by the
defining SVD contract. -/

/-- The contract of the (economy) SVD substrate `_svd`: a factorization
`m = u · diag(s) · vᵀ` with orthonormal columns on both sides and a
non-negative spectrum. -/
def svdOK {N D K : ℕ} (m : Matrix (Fin N) (Fin D) ℚ) (u : Matrix (Fin N) (Fin K) ℚ)
    (s : Fin K → ℚ) (v : Matrix (Fin D) (Fin K) ℚ) : Prop :=
  m = u * Matrix.diagonal s * v.transpose ∧
  u.transpose * u = 1 ∧ v.transpose * v = 1 ∧ ∀ j, 0 ≤ s j

/-- `v * s.reciprocal().unsqueeze(0)`: scale column `j` of `v` by `1 / s j`. -/
def scaleColsByRecip {d k : ℕ} (v : Matrix (Fin d) (Fin k) ℚ) (s : Fin k → ℚ) :
    Matrix (Fin d) (Fin k) ℚ :=
  fun i j => v i j * (s j)⁻¹

/-- `cca_by_svd` (similarity.py lines 43–65) given the SVD data of the two
(already centered) inputs and of `uu = u₁ᵀ·u₂`: returns
`a = (v₁ * s₁.reciprocal) @ u`, `b = (v₂ * s₂.reciprocal) @ v`, `diag`. -/
def cca_by_svd_model {D1 D2 K1 K2 K : ℕ}
    (s1 : Fin K1 → ℚ) (v1 : Matrix (Fin D1) (Fin K1) ℚ)
    (s2 : Fin K2 → ℚ) (v2 : Matrix (Fin D2) (Fin K2) ℚ)
    (uM : Matrix (Fin K1) (Fin K) ℚ) (sM : Fin K → ℚ)
    (vM : Matrix (Fin K2) (Fin K) ℚ) :
    Matrix (Fin D1) (Fin K) ℚ × Matrix (Fin D2) (Fin K) ℚ × (Fin K → ℚ) :=
  (scaleColsByRecip v1 s1 * uM, scaleColsByRecip v2 s2 * vM, sM)

/-- `pwcca_distance(x, y, 'svd')` (similarity.py lines 180–198) given the SVD
data: `a, b, diag = cca(x, y, backend)`; `alpha = (x @ a).abs().sum(dim=0)`;
`alpha /= alpha.sum()`; `1 - alpha @ diag`.  Note `alpha` is computed from the
*original* (uncentered) `x`, exactly as in the source. -/
def pwcca_distance_model {N D1 D2 K1 K2 K : ℕ} (x : Matrix (Fin N) (Fin D1) ℚ)
    (s1 : Fin K1 → ℚ) (v1 : Matrix (Fin D1) (Fin K1) ℚ)
    (s2 : Fin K2 → ℚ) (v2 : Matrix (Fin D2) (Fin K2) ℚ)
    (uM : Matrix (Fin K1) (Fin K) ℚ) (sM : Fin K → ℚ)
    (vM : Matrix (Fin K2) (Fin K) ℚ) : ℚ :=
  let abd := cca_by_svd_model s1 v1 s2 v2 uM sM vM
  let alphaRaw : Fin K → ℚ := fun j => ∑ i, |(x * abd.1) i j|
  1 - ∑ j, alphaRaw j / (∑ j', alphaRaw j') * abd.2.2 j

/-- The `8 × 2` matrix `x` of the asymmetry example: two orthogonal centered
columns of norm 2. -/
def xAsym : Matrix (Fin 8) (Fin 2) ℚ :=
  !![1, 0; 1, 0; -1, 0; -1, 0; 0, 1; 0, 1; 0, -1; 0, -1]

/-- The `8 × 3` matrix `y` of the asymmetry example: three orthogonal centered
columns of norm 10 whose principal correlations with `xAsym` are `3/5` and `1`
and whose first two columns have different `ℓ¹` mass. -/
def yAsym : Matrix (Fin 8) (Fin 3) ℚ :=
  !![3, 0, 3; 3, 0, -3; -3, 0, 3; -3, 0, -3;
     4, 5, 4; -4, 5, -4; 4, -5, -4; -4, -5, 4]

/-- Left singular vectors of `xAsym`. -/
def uxAsym : Matrix (Fin 8) (Fin 2) ℚ :=
  !![1/2, 0; 1/2, 0; -1/2, 0; -1/2, 0; 0, 1/2; 0, 1/2; 0, -1/2; 0, -1/2]

/-- Left singular vectors of `yAsym`. -/
def uyAsym : Matrix (Fin 8) (Fin 3) ℚ :=
  !![3/10, 0, 3/10; 3/10, 0, -3/10; -3/10, 0, 3/10; -3/10, 0, -3/10;
     4/10, 1/2, 4/10; -4/10, 1/2, -4/10; 4/10, -1/2, -4/10; -4/10, -1/2, 4/10]

set_option maxHeartbeats 3200000 in
/-- **C7.** `pwcca_distance` is asymmetric: for the concrete pair
`xAsym : 8×2`, `yAsym : 8×3` (so `D1 = 2 ≠ 3 = D2`), both already
column-centered, with valid SVDs of the inputs and of both cross matrices
`u₁ᵀu₂` and `u₂ᵀu₁`, the two orders of `pwcca_distance` evaluate to `1/5` and
`7/30` — different values. -/
theorem pwcca_distance_asymmetric :
    zero_mean xAsym = xAsym ∧ zero_mean yAsym = yAsym ∧
    svdOK xAsym uxAsym ![2, 2] !![1, 0; 0, 1] ∧
    svdOK yAsym uyAsym ![10, 10, 10] !![1, 0, 0; 0, 1, 0; 0, 0, 1] ∧
    svdOK (uxAsym.transpose * uyAsym) !![1, 0; 0, 1] ![3/5, 1]
      !![1, 0; 0, 1; 0, 0] ∧
    svdOK (uyAsym.transpose * uxAsym) !![1, 0; 0, 1; 0, 0] ![3/5, 1]
      !![1, 0; 0, 1] ∧
    pwcca_distance_model xAsym ![2, 2] !![1, 0; 0, 1] ![10, 10, 10]
        !![1, 0, 0; 0, 1, 0; 0, 0, 1] !![1, 0; 0, 1] ![3/5, 1]
        !![1, 0; 0, 1; 0, 0] = 1/5 ∧
    pwcca_distance_model yAsym ![10, 10, 10] !![1, 0, 0; 0, 1, 0; 0, 0, 1]
        ![2, 2] !![1, 0; 0, 1] !![1, 0; 0, 1; 0, 0]
        ![3/5, 1] !![1, 0; 0, 1] = 7/30 ∧
    (1/5 : ℚ) ≠ 7/30 := by
  refine ⟨?_, ?_, ⟨?_, ?_, ?_, ?_⟩, ⟨?_, ?_, ?_, ?_⟩, ⟨?_, ?_, ?_, ?_⟩,
    ⟨?_, ?_, ?_, ?_⟩, ?_, ?_, by norm_num⟩
  · ext i j
    fin_cases i <;> fin_cases j <;>
      norm_num [zero_mean, xAsym, Fin.sum_univ_succ]
  · ext i j
    fin_cases i <;> fin_cases j <;>
      norm_num [zero_mean, yAsym, Fin.sum_univ_succ]
  · ext i j
    fin_cases i <;> fin_cases j <;>
      norm_num [xAsym, uxAsym, Matrix.mul_apply, Matrix.mul_diagonal, Matrix.vecMul_diagonal, Matrix.diagonal_apply, Matrix.one_apply, Fin.ext_iff, Matrix.transpose_apply, Matrix.vecHead, Matrix.vecTail, Fin.sum_univ_succ]
  · ext i j
    fin_cases i <;> fin_cases j <;>
      norm_num [uxAsym, Matrix.mul_apply, Matrix.one_apply, Fin.ext_iff, Matrix.transpose_apply, Matrix.vecHead, Matrix.vecTail, Fin.sum_univ_succ]
  · ext i j
    fin_cases i <;> fin_cases j <;>
      norm_num [Matrix.mul_apply, Matrix.transpose_apply, Matrix.vecHead, Matrix.vecTail, Fin.sum_univ_succ, Matrix.one_apply, Fin.ext_iff]
  · intro j
    fin_cases j <;> norm_num
  · ext i j
    fin_cases i <;> fin_cases j <;>
      norm_num [yAsym, uyAsym, Matrix.mul_apply, Matrix.mul_diagonal, Matrix.vecMul_diagonal, Matrix.diagonal_apply, Matrix.one_apply, Fin.ext_iff, Matrix.transpose_apply, Matrix.vecHead, Matrix.vecTail, Fin.sum_univ_succ]
  · ext i j
    fin_cases i <;> fin_cases j <;>
      norm_num [uyAsym, Matrix.mul_apply, Matrix.one_apply, Fin.ext_iff, Matrix.transpose_apply, Matrix.vecHead, Matrix.vecTail, Fin.sum_univ_succ]
  · ext i j
    fin_cases i <;> fin_cases j <;>
      norm_num [Matrix.mul_apply, Matrix.transpose_apply, Matrix.vecHead, Matrix.vecTail, Fin.sum_univ_succ, Matrix.one_apply, Fin.ext_iff]
  · intro j
    fin_cases j <;> norm_num
  · ext i j
    fin_cases i <;> fin_cases j <;>
      norm_num [uxAsym, uyAsym, Matrix.mul_apply, Matrix.mul_diagonal, Matrix.vecMul_diagonal, Matrix.diagonal_apply, Matrix.one_apply, Fin.ext_iff, Matrix.transpose_apply, Matrix.vecHead, Matrix.vecTail,
        Matrix.one_apply, Fin.sum_univ_succ]
  · ext i j
    fin_cases i <;> fin_cases j <;>
      norm_num [Matrix.mul_apply, Matrix.one_apply, Fin.ext_iff, Matrix.transpose_apply, Matrix.vecHead, Matrix.vecTail, Fin.sum_univ_succ]
  · ext i j
    fin_cases i <;> fin_cases j <;>
      norm_num [Matrix.mul_apply, Matrix.one_apply, Fin.ext_iff, Matrix.transpose_apply, Matrix.vecHead, Matrix.vecTail, Fin.sum_univ_succ]
  · intro j
    fin_cases j <;> norm_num
  · ext i j
    fin_cases i <;> fin_cases j <;>
      norm_num [uxAsym, uyAsym, Matrix.mul_apply, Matrix.mul_diagonal, Matrix.vecMul_diagonal, Matrix.diagonal_apply, Matrix.one_apply, Fin.ext_iff, Matrix.transpose_apply, Matrix.vecHead, Matrix.vecTail,
        Matrix.one_apply, Fin.sum_univ_succ]
  · ext i j
    fin_cases i <;> fin_cases j <;>
      norm_num [Matrix.mul_apply, Fin.sum_univ_succ]
  · ext i j
    fin_cases i <;> fin_cases j <;>
      norm_num [Matrix.mul_apply, Matrix.one_apply, Fin.ext_iff, Matrix.transpose_apply, Matrix.vecHead, Matrix.vecTail, Fin.sum_univ_succ]
  · intro j
    fin_cases j <;> norm_num
  · norm_num [pwcca_distance_model, cca_by_svd_model, scaleColsByRecip, xAsym,
      Matrix.mul_apply, Matrix.one_apply, Matrix.transpose_apply, Matrix.vecHead,
      Matrix.vecTail, Fin.sum_univ_succ]
    norm_num [abs_of_nonneg (show (0 : ℚ) ≤ 1 / 2 by norm_num)]
  · norm_num [pwcca_distance_model, cca_by_svd_model, scaleColsByRecip, yAsym,
      Matrix.mul_apply, Matrix.one_apply, Matrix.transpose_apply, Matrix.vecHead,
      Matrix.vecTail, Fin.sum_univ_succ]
    norm_num [abs_of_nonneg (show (0 : ℚ) ≤ 1 / 2 by norm_num),
      abs_of_nonneg (show (0 : ℚ) ≤ 3 / 10 by norm_num),
      abs_of_nonneg (show (0 : ℚ) ≤ 2 / 5 by norm_num)]

/-! ## C5: `orthogonal_procrustes_distance` (similarity.py lines 252–274)

`orthogonal_procrustes_distance(x, y)` normalizes both inputs with
`_matrix_normalize` (column-center, then divide by the Frobenius norm of the
centered data, lines 24–41) and returns `1 − ‖xᵀy‖_*`, where `‖·‖_*` is
`torch.linalg.norm(ord='nuc')`, the nuclear norm — the sum of the singular
values, i.e. of the square roots of the eigenvalues of `mᵀm`.  Square roots
force this section over `ℝ`. -/

/-- `_zero_mean(x, dim=0)` over `ℝ`. -/
noncomputable def zero_meanR {n d : ℕ} (x : Matrix (Fin n) (Fin d) ℝ) : Matrix (Fin n) (Fin d) ℝ :=
  fun i j => x i j - (∑ k, x k j) / (n : ℝ)

noncomputable def sqFroR {a b : ℕ} (m : Matrix (Fin a) (Fin b) ℝ) : ℝ :=
  ∑ i, ∑ j, m i j ^ 2

noncomputable def frobeniusNorm {a b : ℕ} (m : Matrix (Fin a) (Fin b) ℝ) : ℝ :=
  Real.sqrt (sqFroR m)

noncomputable def matrix_normalize {n d : ℕ} (x : Matrix (Fin n) (Fin d) ℝ) :
    Matrix (Fin n) (Fin d) ℝ :=
  fun i j => zero_meanR x i j / frobeniusNorm (zero_meanR x)

lemma conjT_eq {a b : ℕ} (m : Matrix (Fin a) (Fin b) ℝ) :
    m.conjTranspose = m.transpose :=
  Matrix.conjTranspose_eq_transpose_of_trivial m

lemma isHermitian_tmul {a b : ℕ} (m : Matrix (Fin a) (Fin b) ℝ) :
    (m.transpose * m).IsHermitian := by
  have := Matrix.isHermitian_transpose_mul_self m
  rwa [conjT_eq] at this

lemma posSemidef_tmul {a b : ℕ} (m : Matrix (Fin a) (Fin b) ℝ) :
    (m.transpose * m).PosSemidef := by
  have := Matrix.posSemidef_conjTranspose_mul_self m
  rwa [conjT_eq] at this

noncomputable def nuclearNorm {a b : ℕ} (m : Matrix (Fin a) (Fin b) ℝ) : ℝ :=
  ∑ i, Real.sqrt ((isHermitian_tmul m).eigenvalues i)

noncomputable def orthogonal_procrustes_distance {n d1 d2 : ℕ}
    (x : Matrix (Fin n) (Fin d1) ℝ) (y : Matrix (Fin n) (Fin d2) ℝ) : ℝ :=
  1 - nuclearNorm ((matrix_normalize x).transpose * matrix_normalize y)

/-- Diagonal entries of a positive semidefinite real matrix are non-negative. -/
lemma psd_diag_nonneg {k : ℕ} {A : Matrix (Fin k) (Fin k) ℝ} (hA : A.PosSemidef)
    (i : Fin k) : 0 ≤ A i i := by
  have h := hA.2 (Pi.single i 1)
  simpa [Matrix.dotProduct, Matrix.mulVec, Pi.single_apply, Finset.sum_ite_eq,
    Finset.mul_sum] using h

lemma psd_trace_nonneg {k : ℕ} {A : Matrix (Fin k) (Fin k) ℝ} (hA : A.PosSemidef) :
    0 ≤ A.trace :=
  Finset.sum_nonneg fun i _ => psd_diag_nonneg hA i

/-- `Q` is a contraction (`‖Q‖_op ≤ 1`): `1 − QᵀQ` is positive semidefinite. -/
def IsContraction {a b : ℕ} (Q : Matrix (Fin a) (Fin b) ℝ) : Prop :=
  Matrix.PosSemidef (1 - Q.transpose * Q)

/-- Cauchy–Schwarz for real dot products, square-root form. -/
lemma dotProduct_le_sqrt {k : ℕ} (x y : Fin k → ℝ) :
    Matrix.dotProduct x y ≤
      Real.sqrt (Matrix.dotProduct x x) * Real.sqrt (Matrix.dotProduct y y) := by
  have h := Finset.sum_mul_sq_le_sq_mul_sq Finset.univ x y
  have hxx : Matrix.dotProduct x x = ∑ i, x i ^ 2 := by
    unfold Matrix.dotProduct
    exact Finset.sum_congr rfl fun i _ => (sq (x i)).symm
  have hyy : Matrix.dotProduct y y = ∑ i, y i ^ 2 := by
    unfold Matrix.dotProduct
    exact Finset.sum_congr rfl fun i _ => (sq (y i)).symm
  have hd : Matrix.dotProduct x y = ∑ i, x i * y i := rfl
  calc Matrix.dotProduct x y ≤ |Matrix.dotProduct x y| := le_abs_self _
    _ = Real.sqrt ((Matrix.dotProduct x y) ^ 2) := (Real.sqrt_sq_eq_abs _).symm
    _ ≤ Real.sqrt ((∑ i, x i ^ 2) * (∑ i, y i ^ 2)) := by
        apply Real.sqrt_le_sqrt
        rw [hd]
        exact h
    _ = Real.sqrt (Matrix.dotProduct x x) * Real.sqrt (Matrix.dotProduct y y) := by
        rw [hxx, hyy,
          Real.sqrt_mul (Finset.sum_nonneg fun i _ => sq_nonneg (x i))]

lemma dotProduct_self_nonneg' {k : ℕ} (x : Fin k → ℝ) :
    0 ≤ Matrix.dotProduct x x :=
  Finset.sum_nonneg fun i _ => mul_self_nonneg (x i)

/-- The quadratic-form reading of `IsContraction`: `‖Qv‖² ≤ ‖v‖²`. -/
lemma IsContraction.mulVec_le {a b : ℕ} {Q : Matrix (Fin a) (Fin b) ℝ}
    (hQ : IsContraction Q) (v : Fin b → ℝ) :
    Matrix.dotProduct (Q.mulVec v) (Q.mulVec v) ≤ Matrix.dotProduct v v := by
  have h := hQ.2 v
  have hv : star v = v := by ext i; simp
  rw [hv, Matrix.sub_mulVec, Matrix.dotProduct_sub, Matrix.one_mulVec,
    ← Matrix.mulVec_mulVec, Matrix.dotProduct_mulVec, ← Matrix.mulVec_transpose,
    Matrix.transpose_transpose] at h
  linarith

/-- A contraction's transpose is a contraction. -/
lemma IsContraction.transpose {a b : ℕ} {Q : Matrix (Fin a) (Fin b) ℝ}
    (hQ : IsContraction Q) : IsContraction Q.transpose := by
  constructor
  · unfold Matrix.IsHermitian
    simp [conjT_eq, Matrix.transpose_sub, Matrix.transpose_mul,
      Matrix.transpose_transpose]
  · intro v
    have hv : star v = v := by ext i; simp
    rw [hv, Matrix.sub_mulVec, Matrix.dotProduct_sub, Matrix.one_mulVec,
      Matrix.transpose_transpose, ← Matrix.mulVec_mulVec,
      Matrix.dotProduct_mulVec, ← Matrix.mulVec_transpose]
    set w := Q.transpose.mulVec v with hw
    suffices hle : Matrix.dotProduct w w ≤ Matrix.dotProduct v v by linarith
    have hA2nn : 0 ≤ Matrix.dotProduct w w := dotProduct_self_nonneg' w
    rcases eq_or_lt_of_le hA2nn with h0 | hpos
    · rw [← h0]
      exact dotProduct_self_nonneg' v
    · have h1 : Matrix.dotProduct v (Q.mulVec w) = Matrix.dotProduct w w := by
        rw [Matrix.dotProduct_mulVec, ← Matrix.mulVec_transpose]
      have hkey : Matrix.dotProduct w w ≤
          Real.sqrt (Matrix.dotProduct v v) * Real.sqrt (Matrix.dotProduct w w) := by
        calc Matrix.dotProduct w w = Matrix.dotProduct v (Q.mulVec w) := h1.symm
          _ ≤ Real.sqrt (Matrix.dotProduct v v) *
              Real.sqrt (Matrix.dotProduct (Q.mulVec w) (Q.mulVec w)) :=
              dotProduct_le_sqrt _ _
          _ ≤ Real.sqrt (Matrix.dotProduct v v) * Real.sqrt (Matrix.dotProduct w w) := by
              apply mul_le_mul_of_nonneg_left _ (Real.sqrt_nonneg _)
              exact Real.sqrt_le_sqrt (hQ.mulVec_le w)
      have hs : Real.sqrt (Matrix.dotProduct w w) * Real.sqrt (Matrix.dotProduct w w)
          = Matrix.dotProduct w w := Real.mul_self_sqrt hA2nn
      have hs_pos : 0 < Real.sqrt (Matrix.dotProduct w w) := Real.sqrt_pos.mpr hpos
      have hstep : Real.sqrt (Matrix.dotProduct w w) ≤
          Real.sqrt (Matrix.dotProduct v v) := by nlinarith
      have hvnn := dotProduct_self_nonneg' v
      nlinarith [Real.mul_self_sqrt hvnn]

lemma sqFroR_eq_trace {a b : ℕ} (m : Matrix (Fin a) (Fin b) ℝ) :
    sqFroR m = (m.transpose * m).trace := by
  unfold sqFroR Matrix.trace
  rw [Finset.sum_comm]
  apply Finset.sum_congr rfl
  intro j _
  rw [Matrix.diag_apply, Matrix.mul_apply]
  apply Finset.sum_congr rfl
  intro i _
  rw [Matrix.transpose_apply, sq]

lemma sqFroR_transpose {a b : ℕ} (m : Matrix (Fin a) (Fin b) ℝ) :
    sqFroR m.transpose = sqFroR m := by
  unfold sqFroR
  rw [Finset.sum_comm]
  rfl

lemma sqFroR_nonneg {a b : ℕ} (m : Matrix (Fin a) (Fin b) ℝ) : 0 ≤ sqFroR m :=
  Finset.sum_nonneg fun i _ => Finset.sum_nonneg fun j _ => sq_nonneg (m i j)

/-- The trace of a product of two positive semidefinite matrices is
non-negative. -/
lemma trace_mul_psd_nonneg {k : ℕ} {C D : Matrix (Fin k) (Fin k) ℝ}
    (hC : C.PosSemidef) (hD : D.PosSemidef) : 0 ≤ (C * D).trace := by
  obtain ⟨B, hBherm, hBB⟩ :
      ∃ B : Matrix (Fin k) (Fin k) ℝ, B.transpose = B ∧ B * B = C := by
    refine ⟨hC.sqrt, ?_, hC.sqrt_mul_self⟩
    have := hC.posSemidef_sqrt.1
    rwa [Matrix.IsHermitian, conjT_eq] at this
  have hpsd : (B * D * B.conjTranspose).PosSemidef :=
    hD.mul_mul_conjTranspose_same B
  rw [conjT_eq, hBherm] at hpsd
  have h0 := psd_trace_nonneg hpsd
  rw [← hBB, Matrix.mul_assoc, Matrix.trace_mul_comm B (B * D), Matrix.mul_assoc]
  rw [Matrix.mul_assoc] at h0
  exact h0

/-- Left multiplication by a contraction does not increase the Frobenius
norm. -/
lemma sqFro_contraction_left {a b c : ℕ} {Q : Matrix (Fin a) (Fin b) ℝ}
    (hQ : IsContraction Q) (B : Matrix (Fin b) (Fin c) ℝ) :
    sqFroR (Q * B) ≤ sqFroR B := by
  have hpsd : (B.conjTranspose * (1 - Q.transpose * Q) * B).PosSemidef :=
    hQ.conjTranspose_mul_mul_same B
  rw [conjT_eq] at hpsd
  have htr := psd_trace_nonneg hpsd
  have hexpand : (B.transpose * (1 - Q.transpose * Q) * B).trace =
      (B.transpose * B).trace - ((Q * B).transpose * (Q * B)).trace := by
    rw [Matrix.mul_sub, Matrix.mul_one, Matrix.sub_mul, Matrix.trace_sub]
    congr 1
    rw [Matrix.transpose_mul, Matrix.mul_assoc, Matrix.mul_assoc, Matrix.mul_assoc]
  rw [hexpand] at htr
  rw [sqFroR_eq_trace, sqFroR_eq_trace]
  linarith

/-- Right multiplication by a contraction does not increase the Frobenius
norm. -/
lemma sqFro_contraction_right {a b c : ℕ} {Q : Matrix (Fin b) (Fin c) ℝ}
    (hQ : IsContraction Q) (A : Matrix (Fin a) (Fin b) ℝ) :
    sqFroR (A * Q) ≤ sqFroR A := by
  have h := sqFro_contraction_left hQ.transpose A.transpose
  rw [← Matrix.transpose_mul] at h
  rw [← sqFroR_transpose A, ← sqFroR_transpose (A * Q)]
  exact h

/-- Cauchy–Schwarz for the Frobenius inner product `tr(XᵀY)`. -/
lemma trace_transpose_mul_le {a b : ℕ} (X Y : Matrix (Fin a) (Fin b) ℝ) :
    (X.transpose * Y).trace ≤ frobeniusNorm X * frobeniusNorm Y := by
  have htr : (X.transpose * Y).trace = ∑ p ∈ (Finset.univ ×ˢ Finset.univ),
      X p.2 p.1 * Y p.2 p.1 := by
    rw [Finset.sum_product]
    unfold Matrix.trace
    apply Finset.sum_congr rfl
    intro j _
    rw [Matrix.diag_apply, Matrix.mul_apply]
    rfl
  have hX : sqFroR X = ∑ p ∈ (Finset.univ ×ˢ Finset.univ),
      X p.2 p.1 ^ 2 := by
    rw [Finset.sum_product]
    unfold sqFroR
    rw [Finset.sum_comm]
  have hY : sqFroR Y = ∑ p ∈ (Finset.univ ×ˢ Finset.univ),
      Y p.2 p.1 ^ 2 := by
    rw [Finset.sum_product]
    unfold sqFroR
    rw [Finset.sum_comm]
  have hcs := Finset.sum_mul_sq_le_sq_mul_sq (Finset.univ ×ˢ Finset.univ)
    (fun p => X p.2 p.1) (fun p => Y p.2 p.1)
  unfold frobeniusNorm
  calc (X.transpose * Y).trace ≤ |(X.transpose * Y).trace| := le_abs_self _
    _ = Real.sqrt ((X.transpose * Y).trace ^ 2) := (Real.sqrt_sq_eq_abs _).symm
    _ ≤ Real.sqrt (sqFroR X * sqFroR Y) := by
        apply Real.sqrt_le_sqrt
        rw [htr, hX, hY]
        exact hcs
    _ = Real.sqrt (sqFroR X) * Real.sqrt (sqFroR Y) :=
        Real.sqrt_mul (sqFroR_nonneg X) _

/-- For a contraction `Q` and a positive semidefinite `A`,
`tr(QᵀA) ≤ tr(A)`. -/
lemma trace_contraction_psd {k : ℕ} {Q A : Matrix (Fin k) (Fin k) ℝ}
    (hQ : IsContraction Q) (hA : A.PosSemidef) :
    (Q.transpose * A).trace ≤ A.trace := by
  obtain ⟨B, hBherm, hBB⟩ :
      ∃ B : Matrix (Fin k) (Fin k) ℝ, B.transpose = B ∧ B * B = A := by
    refine ⟨hA.sqrt, ?_, hA.sqrt_mul_self⟩
    have := hA.posSemidef_sqrt.1
    rwa [Matrix.IsHermitian, conjT_eq] at this
  rw [← hBB]
  have h1 : (Q.transpose * (B * B)).trace = ((Q * B).transpose * B).trace := by
    rw [Matrix.transpose_mul, hBherm]
    rw [← Matrix.mul_assoc, Matrix.mul_assoc B Q.transpose B,
      Matrix.trace_mul_comm B (Q.transpose * B), Matrix.mul_assoc]
  rw [h1]
  calc ((Q * B).transpose * B).trace ≤
      frobeniusNorm (Q * B) * frobeniusNorm B :=
        trace_transpose_mul_le _ _
    _ ≤ frobeniusNorm B * frobeniusNorm B := by
        apply mul_le_mul_of_nonneg_right _ (Real.sqrt_nonneg _)
        exact Real.sqrt_le_sqrt (sqFro_contraction_left hQ B)
    _ = sqFroR B := Real.mul_self_sqrt (sqFroR_nonneg _)
    _ = (B * B).trace := by rw [sqFroR_eq_trace, hBherm]

/-- Spectral data of the Gram matrix `MᵀM`: an orthogonal `U` diagonalizing it
with non-negative eigenvalues whose square roots sum to the nuclear norm. -/
lemma spectral_data {a b : ℕ} (M : Matrix (Fin a) (Fin b) ℝ) :
    ∃ (U : Matrix (Fin b) (Fin b) ℝ) (lam : Fin b → ℝ),
      U.transpose * U = 1 ∧ U * U.transpose = 1 ∧
      U.transpose * (M.transpose * M) * U = Matrix.diagonal lam ∧
      (∀ i, 0 ≤ lam i) ∧ nuclearNorm M = ∑ i, Real.sqrt (lam i) := by
  refine ⟨(Matrix.IsHermitian.eigenvectorUnitary (isHermitian_tmul M) :
      Matrix (Fin b) (Fin b) ℝ), (isHermitian_tmul M).eigenvalues,
    ?_, ?_, ?_, ?_, rfl⟩
  · have h := Matrix.mem_unitaryGroup_iff'.mp
      (Matrix.IsHermitian.eigenvectorUnitary (isHermitian_tmul M)).2
    rwa [Matrix.star_eq_conjTranspose, conjT_eq] at h
  · have h := Matrix.mem_unitaryGroup_iff.mp
      (Matrix.IsHermitian.eigenvectorUnitary (isHermitian_tmul M)).2
    rwa [Matrix.star_eq_conjTranspose, conjT_eq] at h
  · have h := (isHermitian_tmul M).star_mul_self_mul_eq_diagonal
    rw [Matrix.star_eq_conjTranspose, conjT_eq] at h
    rw [h, RCLike.ofReal_real_eq_id]
    rfl
  · exact fun i => (posSemidef_tmul M).eigenvalues_nonneg i

/-- Von Neumann bound, one direction: for every contraction `Q`,
`tr(QᵀM)` is at most the nuclear norm of `M`. -/
lemma trace_contraction_le_nuclear {a b : ℕ} (M Q : Matrix (Fin a) (Fin b) ℝ)
    (hQ : IsContraction Q) : (Q.transpose * M).trace ≤ nuclearNorm M := by
  obtain ⟨U, lam, hUU, hUUt, hdiag, hlam, hnuc⟩ := spectral_data M
  rw [hnuc]
  have h1 : ((Q * U).transpose * (M * U)).trace = (Q.transpose * M).trace := by
    rw [Matrix.transpose_mul, Matrix.mul_assoc,
      Matrix.trace_mul_comm U.transpose, Matrix.mul_assoc, Matrix.mul_assoc,
      hUUt, Matrix.mul_one]
  have hY : (M * U).transpose * (M * U) = Matrix.diagonal lam := by
    rw [Matrix.transpose_mul, ← hdiag]
    simp only [Matrix.mul_assoc]
  have hXpsd := posSemidef_tmul (Q * U)
  have hXle : ∀ i, ((Q * U).transpose * (Q * U)) i i ≤ 1 := by
    intro i
    have hpsd : (U.conjTranspose * (1 - Q.transpose * Q) * U).PosSemidef :=
      hQ.conjTranspose_mul_mul_same U
    rw [conjT_eq] at hpsd
    have hexp : U.transpose * (1 - Q.transpose * Q) * U =
        1 - (Q * U).transpose * (Q * U) := by
      rw [Matrix.mul_sub, Matrix.mul_one, Matrix.sub_mul, hUU,
        Matrix.transpose_mul]
      congr 1
      simp only [Matrix.mul_assoc]
    rw [hexp] at hpsd
    have hd := psd_diag_nonneg hpsd i
    rw [Matrix.sub_apply, Matrix.one_apply_eq] at hd
    linarith
  have hdiagbound : ∀ i : Fin b,
      ((Q * U).transpose * (M * U)) i i ≤ Real.sqrt (lam i) := by
    intro i
    set X := Q * U
    set Y := M * U
    have hc : (X.transpose * Y) i i = ∑ j, X j i * Y j i := by
      rw [Matrix.mul_apply]
      exact Finset.sum_congr rfl fun j _ => rfl
    have hXi : (X.transpose * X) i i = ∑ j, X j i ^ 2 := by
      rw [Matrix.mul_apply]
      exact Finset.sum_congr rfl fun j _ => (sq (X j i)).symm
    have hYi : ∑ j, Y j i ^ 2 = lam i := by
      have : (Y.transpose * Y) i i = lam i := by
        rw [hY, Matrix.diagonal_apply_eq]
      rw [← this, Matrix.mul_apply]
      exact Finset.sum_congr rfl fun j _ => sq (Y j i)
    have hcs := Finset.sum_mul_sq_le_sq_mul_sq Finset.univ
      (fun j => X j i) (fun j => Y j i)
    rw [hc]
    calc (∑ j, X j i * Y j i) ≤ |∑ j, X j i * Y j i| := le_abs_self _
      _ = Real.sqrt ((∑ j, X j i * Y j i) ^ 2) := (Real.sqrt_sq_eq_abs _).symm
      _ ≤ Real.sqrt ((∑ j, X j i ^ 2) * (∑ j, Y j i ^ 2)) :=
          Real.sqrt_le_sqrt hcs
      _ ≤ Real.sqrt (lam i) := by
          apply Real.sqrt_le_sqrt
          rw [hYi]
          apply mul_le_of_le_one_left (hlam i)
          rw [← hXi]
          exact hXle i
  rw [← h1]
  unfold Matrix.trace
  exact Finset.sum_le_sum fun i _ => hdiagbound i

/-- Von Neumann bound, attainment: some contraction realizes the nuclear norm
as `tr(QᵀM)`. -/
lemma exists_contraction_trace_eq_nuclear {a b : ℕ} (M : Matrix (Fin a) (Fin b) ℝ) :
    ∃ Q : Matrix (Fin a) (Fin b) ℝ,
      IsContraction Q ∧ (Q.transpose * M).trace = nuclearNorm M := by
  obtain ⟨U, lam, hUU, hUUt, hdiag, hlam, hnuc⟩ := spectral_data M
  have hdiag' : U.transpose * (M.transpose * (M * U)) = Matrix.diagonal lam := by
    rw [← hdiag]
    simp only [Matrix.mul_assoc]
  set g : Fin b → ℝ := fun i => if lam i = 0 then 0 else (Real.sqrt (lam i))⁻¹
    with hg
  refine ⟨M * U * Matrix.diagonal g * U.transpose, ?_, ?_⟩
  · have hQt : (M * U * Matrix.diagonal g * U.transpose).transpose =
        U * Matrix.diagonal g * (U.transpose * M.transpose) := by
      rw [Matrix.transpose_mul, Matrix.transpose_mul, Matrix.transpose_mul,
        Matrix.transpose_transpose, Matrix.diagonal_transpose]
      simp only [Matrix.mul_assoc]
    have hprod : (M * U * Matrix.diagonal g * U.transpose).transpose *
        (M * U * Matrix.diagonal g * U.transpose) =
        U * Matrix.diagonal (fun i => g i * (lam i * g i)) * U.transpose := by
      rw [hQt]
      have expand : U * Matrix.diagonal g * (U.transpose * M.transpose) *
          (M * U * Matrix.diagonal g * U.transpose) =
          U * (Matrix.diagonal g *
            (U.transpose * (M.transpose * (M * U)) *
              (Matrix.diagonal g * U.transpose))) := by
        simp only [Matrix.mul_assoc]
      rw [expand, hdiag']
      rw [show Matrix.diagonal lam * (Matrix.diagonal g * U.transpose) =
          Matrix.diagonal (fun i => lam i * g i) * U.transpose from by
        rw [← Matrix.mul_assoc, Matrix.diagonal_mul_diagonal]]
      rw [show Matrix.diagonal g *
            (Matrix.diagonal (fun i => lam i * g i) * U.transpose) =
          Matrix.diagonal (fun i => g i * (lam i * g i)) * U.transpose from by
        rw [← Matrix.mul_assoc, Matrix.diagonal_mul_diagonal]]
      simp only [Matrix.mul_assoc]
    constructor
    · unfold Matrix.IsHermitian
      rw [conjT_eq, hprod]
      rw [Matrix.transpose_sub, Matrix.transpose_one, Matrix.transpose_mul,
        Matrix.transpose_mul, Matrix.transpose_transpose,
        Matrix.diagonal_transpose]
      simp only [Matrix.mul_assoc]
    · intro v
      have hform : 1 - (M * U * Matrix.diagonal g * U.transpose).transpose *
          (M * U * Matrix.diagonal g * U.transpose) =
          U * Matrix.diagonal (fun i => 1 - g i * (lam i * g i)) * U.transpose := by
        rw [hprod]
        have hone : (1 : Matrix (Fin b) (Fin b) ℝ) = U * 1 * U.transpose := by
          rw [Matrix.mul_one, hUUt]
        rw [hone]
        rw [show U * 1 * U.transpose - U * Matrix.diagonal (fun i => g i * (lam i * g i)) * U.transpose =
            U * (1 - Matrix.diagonal (fun i => g i * (lam i * g i))) * U.transpose from by
          rw [Matrix.mul_sub, Matrix.sub_mul]]
        congr 2
        rw [← Matrix.diagonal_one, Matrix.diagonal_sub]
      have hpsd : (U * Matrix.diagonal (fun i => 1 - g i * (lam i * g i)) *
          U.conjTranspose).PosSemidef := by
        apply Matrix.PosSemidef.mul_mul_conjTranspose_same
        apply Matrix.PosSemidef.diagonal
        intro i
        rcases eq_or_ne (lam i) 0 with h0 | hne
        · simp [hg, h0]
        · have hpos : 0 < lam i := lt_of_le_of_ne (hlam i) (Ne.symm hne)
          have hsq : Real.sqrt (lam i) * Real.sqrt (lam i) = lam i :=
            Real.mul_self_sqrt (hlam i)
          have hspos : 0 < Real.sqrt (lam i) := Real.sqrt_pos.mpr hpos
          simp only [hg, if_neg hne]
          have hval : (Real.sqrt (lam i))⁻¹ * (lam i * (Real.sqrt (lam i))⁻¹) = 1 := by
            rw [show (Real.sqrt (lam i))⁻¹ * (lam i * (Real.sqrt (lam i))⁻¹) =
              lam i / Real.sqrt (lam i) * (Real.sqrt (lam i))⁻¹ from by ring]
            rw [Real.div_sqrt]
            exact mul_inv_cancel₀ hspos.ne'
          rw [hval]
          norm_num
      rw [conjT_eq] at hpsd
      rw [hform]
      exact hpsd.2 v
  · have hQt : (M * U * Matrix.diagonal g * U.transpose).transpose * M =
        U * (Matrix.diagonal g * (U.transpose * (M.transpose * M))) := by
      rw [Matrix.transpose_mul, Matrix.transpose_mul, Matrix.transpose_mul,
        Matrix.transpose_transpose, Matrix.diagonal_transpose]
      simp only [Matrix.mul_assoc]
    rw [hQt, Matrix.trace_mul_comm]
    rw [show Matrix.diagonal g * (U.transpose * (M.transpose * M)) * U =
        Matrix.diagonal g * (U.transpose * (M.transpose * (M * U))) from by
      simp only [Matrix.mul_assoc]]
    rw [hdiag', Matrix.diagonal_mul_diagonal, Matrix.trace_diagonal, hnuc]
    apply Finset.sum_congr rfl
    intro i _
    rcases eq_or_ne (lam i) 0 with h0 | hne
    · simp [hg, h0]
    · have hpos : 0 < lam i := lt_of_le_of_ne (hlam i) (Ne.symm hne)
      have hsq : Real.sqrt (lam i) * Real.sqrt (lam i) = lam i :=
        Real.mul_self_sqrt (hlam i)
      have hspos : 0 < Real.sqrt (lam i) := Real.sqrt_pos.mpr hpos
      simp only [hg, if_neg hne]
      rw [inv_mul_eq_div, Real.div_sqrt]

lemma nuclearNorm_nonneg {a b : ℕ} (m : Matrix (Fin a) (Fin b) ℝ) :
    0 ≤ nuclearNorm m :=
  Finset.sum_nonneg fun _ _ => Real.sqrt_nonneg _

/-- The nuclear norm of a positive semidefinite matrix is its trace. -/
lemma nuclearNorm_psd_eq_trace {k : ℕ} {A : Matrix (Fin k) (Fin k) ℝ}
    (hA : A.PosSemidef) : nuclearNorm A = A.trace := by
  apply le_antisymm
  · obtain ⟨Q, hQc, hQt⟩ := exists_contraction_trace_eq_nuclear A
    rw [← hQt]
    exact trace_contraction_psd hQc hA
  · have hone : IsContraction (1 : Matrix (Fin k) (Fin k) ℝ) := by
      unfold IsContraction
      rw [Matrix.transpose_one, Matrix.mul_one, sub_self]
      exact Matrix.PosSemidef.zero
    have h := trace_contraction_le_nuclear A 1 hone
    rwa [Matrix.transpose_one, Matrix.one_mul] at h

/-- The nuclear norm of a positive semidefinite matrix times an orthogonal
matrix is still its trace (rotation invariance of singular values). -/
lemma nuclearNorm_psd_mul_orth {k : ℕ} {A R : Matrix (Fin k) (Fin k) ℝ}
    (hA : A.PosSemidef) (hR : R.transpose * R = 1) :
    nuclearNorm (A * R) = A.trace := by
  have hRRt : R * R.transpose = 1 := Matrix.mul_eq_one_comm.mp hR
  apply le_antisymm
  · obtain ⟨Q, hQc, hQt⟩ := exists_contraction_trace_eq_nuclear (A * R)
    rw [← hQt]
    have hQR : IsContraction (Q * R.transpose) := by
      unfold IsContraction
      have hexp : 1 - (Q * R.transpose).transpose * (Q * R.transpose) =
          R * (1 - Q.transpose * Q) * R.conjTranspose := by
        rw [conjT_eq, Matrix.mul_sub, Matrix.sub_mul, Matrix.mul_one, hRRt,
          Matrix.transpose_mul, Matrix.transpose_transpose]
        congr 1
        simp only [Matrix.mul_assoc]
      rw [hexp]
      exact hQc.mul_mul_conjTranspose_same R
    have heq : (Q.transpose * (A * R)).trace =
        ((Q * R.transpose).transpose * A).trace := by
      rw [Matrix.transpose_mul, Matrix.transpose_transpose,
        ← Matrix.mul_assoc, Matrix.trace_mul_comm (Q.transpose * A) R,
        ← Matrix.mul_assoc, Matrix.mul_assoc R Q.transpose A]
    rw [heq]
    exact trace_contraction_psd hQR hA
  · have hRc : IsContraction R := by
      unfold IsContraction
      rw [hR, sub_self]
      exact Matrix.PosSemidef.zero
    have h := trace_contraction_le_nuclear (A * R) R hRc
    have heq : (R.transpose * (A * R)).trace = A.trace := by
      rw [← Matrix.mul_assoc, Matrix.trace_mul_comm (R.transpose * A) R,
        ← Matrix.mul_assoc, hRRt, Matrix.one_mul]
    rwa [heq] at h

lemma sqFroR_pos_of_ne_zero {n d : ℕ} {z : Matrix (Fin n) (Fin d) ℝ}
    (hz : z ≠ 0) : 0 < sqFroR z := by
  have hex : ∃ i j, z i j ≠ 0 := by
    by_contra hc
    push_neg at hc
    exact hz (by ext i j; exact hc i j)
  obtain ⟨i, j, hij⟩ := hex
  have hterm : 0 < z i j ^ 2 := by positivity
  have hinner : 0 < ∑ j', z i j' ^ 2 :=
    Finset.sum_pos' (fun j' _ => sq_nonneg _) ⟨j, Finset.mem_univ j, hterm⟩
  exact Finset.sum_pos' (fun i' _ => Finset.sum_nonneg fun j' _ => sq_nonneg _)
    ⟨i, Finset.mem_univ i, hinner⟩

lemma sqFro_matrix_normalize {n d : ℕ} (x : Matrix (Fin n) (Fin d) ℝ)
    (hx : zero_meanR x ≠ 0) : sqFroR (matrix_normalize x) = 1 := by
  have hs : 0 < sqFroR (zero_meanR x) := sqFroR_pos_of_ne_zero hx
  have hf : frobeniusNorm (zero_meanR x) ^ 2 = sqFroR (zero_meanR x) :=
    Real.sq_sqrt hs.le
  have hfne : frobeniusNorm (zero_meanR x) ≠ 0 := by
    unfold frobeniusNorm
    exact (Real.sqrt_pos.mpr hs).ne'
  unfold sqFroR matrix_normalize
  have hdiv : ∀ i j, (zero_meanR x i j / frobeniusNorm (zero_meanR x)) ^ 2 =
      zero_meanR x i j ^ 2 / frobeniusNorm (zero_meanR x) ^ 2 := by
    intro i j
    rw [div_pow]
  calc (∑ i, ∑ j, (zero_meanR x i j / frobeniusNorm (zero_meanR x)) ^ 2) =
      ∑ i, ∑ j, zero_meanR x i j ^ 2 / frobeniusNorm (zero_meanR x) ^ 2 := by
        apply Finset.sum_congr rfl
        intro i _
        exact Finset.sum_congr rfl fun j _ => hdiv i j
    _ = (∑ i, ∑ j, zero_meanR x i j ^ 2) / frobeniusNorm (zero_meanR x) ^ 2 := by
        rw [Finset.sum_div]
        apply Finset.sum_congr rfl
        intro i _
        rw [Finset.sum_div]
    _ = 1 := by
        rw [hf]
        exact div_self hs.ne'

lemma frobeniusNorm_matrix_normalize {n d : ℕ} (x : Matrix (Fin n) (Fin d) ℝ)
    (hx : zero_meanR x ≠ 0) : frobeniusNorm (matrix_normalize x) = 1 := by
  unfold frobeniusNorm
  rw [sqFro_matrix_normalize x hx, Real.sqrt_one]

lemma zero_meanR_mul_right {n d e : ℕ} (x : Matrix (Fin n) (Fin d) ℝ)
    (R : Matrix (Fin d) (Fin e) ℝ) :
    zero_meanR (x * R) = zero_meanR x * R := by
  ext i j
  unfold zero_meanR
  simp only [Matrix.mul_apply]
  rw [show (∑ l, (x i l - (∑ k, x k l) / (n : ℝ)) * R l j) =
      (∑ l, x i l * R l j) - ∑ l, (∑ k, x k l) / (n : ℝ) * R l j from by
    rw [← Finset.sum_sub_distrib]
    exact Finset.sum_congr rfl fun l _ => by rw [sub_mul]]
  congr 1
  have hterm : ∀ l, (∑ k, x k l) / (n : ℝ) * R l j =
      (∑ k, x k l * R l j) / (n : ℝ) := fun l => by
    rw [div_mul_eq_mul_div, Finset.sum_mul]
  rw [Finset.sum_congr rfl (fun l _ => hterm l), ← Finset.sum_div,
    Finset.sum_comm]

lemma sqFroR_mul_orth {a k : ℕ} (Z : Matrix (Fin a) (Fin k) ℝ)
    {R : Matrix (Fin k) (Fin k) ℝ} (hR : R.transpose * R = 1) :
    sqFroR (Z * R) = sqFroR Z := by
  have hRRt : R * R.transpose = 1 := Matrix.mul_eq_one_comm.mp hR
  rw [sqFroR_eq_trace, sqFroR_eq_trace, Matrix.transpose_mul]
  rw [show R.transpose * Z.transpose * (Z * R) =
      R.transpose * (Z.transpose * Z) * R from by simp only [Matrix.mul_assoc]]
  rw [Matrix.trace_mul_comm (R.transpose * (Z.transpose * Z)) R,
    ← Matrix.mul_assoc, hRRt, Matrix.one_mul]

lemma matrix_normalize_mul_orth {n d : ℕ} (x : Matrix (Fin n) (Fin d) ℝ)
    {R : Matrix (Fin d) (Fin d) ℝ} (hR : R.transpose * R = 1) :
    matrix_normalize (x * R) = matrix_normalize x * R := by
  ext i j
  unfold matrix_normalize
  rw [Matrix.mul_apply]
  have hfr : frobeniusNorm (zero_meanR (x * R)) = frobeniusNorm (zero_meanR x) := by
    unfold frobeniusNorm
    rw [zero_meanR_mul_right, sqFroR_mul_orth _ hR]
  rw [hfr, zero_meanR_mul_right, Matrix.mul_apply]
  rw [Finset.sum_div]
  apply Finset.sum_congr rfl
  intro l _
  rw [div_mul_eq_mul_div]

/-- **C5.** With `x` non-zero after column-centering:
`orthogonal_procrustes_distance(x, x) = 0`; for every orthogonal `R`,
`orthogonal_procrustes_distance(x, x@R) = 0` (rotation invariance); and for
every second input `y` (non-zero after centering) the result lies in `[0, 1]`,
thanks to the centering and unit-Frobenius-norm preconditioning. -/
theorem orthogonal_procrustes_properties {n d : ℕ} (x : Matrix (Fin n) (Fin d) ℝ)
    (hx : zero_meanR x ≠ 0) :
    orthogonal_procrustes_distance x x = 0 ∧
    (∀ R : Matrix (Fin d) (Fin d) ℝ, R.transpose * R = 1 →
      orthogonal_procrustes_distance x (x * R) = 0) ∧
    ∀ (d2 : ℕ) (y : Matrix (Fin n) (Fin d2) ℝ), zero_meanR y ≠ 0 →
      0 ≤ orthogonal_procrustes_distance x y ∧
        orthogonal_procrustes_distance x y ≤ 1 := by
  have hG : ((matrix_normalize x).transpose * matrix_normalize x).PosSemidef :=
    posSemidef_tmul _
  have htrG : ((matrix_normalize x).transpose * matrix_normalize x).trace = 1 := by
    rw [← sqFroR_eq_trace, sqFro_matrix_normalize x hx]
  refine ⟨?_, ?_, ?_⟩
  · unfold orthogonal_procrustes_distance
    rw [nuclearNorm_psd_eq_trace hG, htrG, sub_self]
  · intro R hR
    unfold orthogonal_procrustes_distance
    rw [matrix_normalize_mul_orth x hR, ← Matrix.mul_assoc,
      nuclearNorm_psd_mul_orth hG hR, htrG, sub_self]
  · intro d2 y hy
    constructor
    · unfold orthogonal_procrustes_distance
      have hnb : nuclearNorm ((matrix_normalize x).transpose *
          matrix_normalize y) ≤ 1 := by
        obtain ⟨Q, hQc, hQt⟩ := exists_contraction_trace_eq_nuclear
          ((matrix_normalize x).transpose * matrix_normalize y)
        rw [← hQt]
        have heq : (Q.transpose *
            ((matrix_normalize x).transpose * matrix_normalize y)).trace =
            ((matrix_normalize x * Q).transpose * matrix_normalize y).trace := by
          rw [Matrix.transpose_mul]
          simp only [Matrix.mul_assoc]
        rw [heq]
        calc ((matrix_normalize x * Q).transpose * matrix_normalize y).trace ≤
            frobeniusNorm (matrix_normalize x * Q) *
              frobeniusNorm (matrix_normalize y) :=
              trace_transpose_mul_le _ _
          _ ≤ frobeniusNorm (matrix_normalize x) *
              frobeniusNorm (matrix_normalize y) := by
              apply mul_le_mul_of_nonneg_right _ (Real.sqrt_nonneg _)
              exact Real.sqrt_le_sqrt (sqFro_contraction_right hQc _)
          _ = 1 := by
              rw [frobeniusNorm_matrix_normalize x hx,
                frobeniusNorm_matrix_normalize y hy, mul_one]
      linarith
    · unfold orthogonal_procrustes_distance
      have := nuclearNorm_nonneg ((matrix_normalize x).transpose *
        matrix_normalize y)
      linarith

/-- Witness for `orthogonal_procrustes_properties`: the `2 × 1` matrix
`x = (0, 1)ᵀ` (centered: `(−1/2, 1/2)ᵀ ≠ 0`) and the orthogonal `1 × 1`
matrix `R = (−1)`. -/
theorem orthogonal_procrustes_properties_witness :
    orthogonal_procrustes_distance !![(0 : ℝ); 1] !![(0 : ℝ); 1] = 0 ∧
    orthogonal_procrustes_distance !![(0 : ℝ); 1]
      (!![(0 : ℝ); 1] * !![(-1 : ℝ)]) = 0 ∧
    (0 ≤ orthogonal_procrustes_distance !![(0 : ℝ); 1] !![(0 : ℝ); 1] ∧
      orthogonal_procrustes_distance !![(0 : ℝ); 1] !![(0 : ℝ); 1] ≤ 1) := by
  have hx : zero_meanR !![(0 : ℝ); 1] ≠ 0 := by
    intro h
    have h00 := congrFun (congrFun h 0) 0
    simp only [zero_meanR, Fin.sum_univ_succ] at h00
    norm_num [Matrix.zero_apply] at h00
  have hR : (!![(-1 : ℝ)]).transpose * !![(-1 : ℝ)] = 1 := by
    ext i j
    fin_cases i
    fin_cases j
    norm_num [Matrix.mul_apply, Matrix.one_apply]
  obtain ⟨h1, h2, h3⟩ := orthogonal_procrustes_properties !![(0 : ℝ); 1] hx
  exact ⟨h1, h2 _ hR, h3 1 !![(0 : ℝ); 1] hx⟩


end Anatome
